import Mathlib

/-!
Verification development for the API-Management-Center provider/model
aggregation pipeline (ApiEndpointsPage and related pages).

JavaScript strings are embedded as `List Char`; `String(v ?? '')` on an
absent value becomes the empty list, `trim` removes whitespace at both
ends, and `toLowerCase` lowers characters pointwise.  All functions are
translated from the TypeScript source; every definition names the source
function it embeds.
-/

set_option maxHeartbeats 1000000

namespace ApiMgmt

/-- JS strings, embedded as lists of characters. -/
abbrev Str := List Char

/-- Coerce a Lean string literal to the embedding. -/
def str (s : String) : Str := s.data

/-- Whitespace test used by `String.prototype.trim`. -/
def isSpaceChar (c : Char) : Bool := c.isWhitespace

/-- Remove leading whitespace. -/
def trimLeft (s : Str) : Str := s.dropWhile isSpaceChar

/-- Remove trailing whitespace. -/
def trimRight (s : Str) : Str := (s.reverse.dropWhile isSpaceChar).reverse

/-- `String.prototype.trim`. -/
def trim (s : Str) : Str := trimRight (trimLeft s)

/-- `String.prototype.toLowerCase` (pointwise, ASCII-faithful). -/
def toLower (s : Str) : Str := s.map Char.toLower

/-- `normalizeText`: `String(value ?? '').trim()`, on a possibly absent value. -/
def normalizeText : Option Str → Str
  | none => []
  | some s => trim s

/-- `normalizeProviderKey`: `normalizeText(value).toLowerCase()`. -/
def normalizeProviderKey (s : Option Str) : Str := toLower (normalizeText s)

/-- Clamp a JS index (possibly negative, counted from the end) into `[0, len]`,
as `String.prototype.slice` does. -/
def jsIndex (len : Nat) (i : Int) : Nat :=
  if i < 0 then len - min len i.natAbs else min len i.toNat

/-- `String.prototype.slice(a, b)`. -/
def jsSlice (s : Str) (a b : Int) : Str :=
  (s.take (jsIndex s.length b)).drop (jsIndex s.length a)

/-- `String.prototype.slice(a)` (to the end of the string). -/
def jsSliceEnd (s : Str) (a : Int) : Str := s.drop (jsIndex s.length a)

/-- The mask character `•`. -/
def bullet : Char := '•'

/-- `maskKey` (identical in ApiEndpointsPage and the page-level copy):
keys of length at most 8 are replaced by eight bullets; longer keys keep
the first five and last four characters around at most sixteen bullets. -/
def maskKey (key : Str) : Str :=
  if key.length ≤ 8 then List.replicate 8 bullet
  else jsSlice key 0 5 ++ List.replicate (min (key.length - 8) 16) bullet ++ jsSliceEnd key (-4)

/-- A loosely typed JSON flag value as received from the backend. -/
inductive FlagValue where
  | boolean (b : Bool)
  | number (n : Int)
  | string (s : Str)
  | undefined
deriving DecidableEq

/-- `isTruthyFlag`: accepts `true`, non-zero numbers, and the case-insensitive
string set `{true, 1, yes, y, on}`. -/
def isTruthyFlag : FlagValue → Bool
  | .boolean b => b
  | .number n => n ≠ 0
  | .string s =>
      let normalized := toLower (trim s)
      decide (normalized ∈ [str "true", str "1", str "yes", str "y", str "on"])
  | .undefined => false

/-- `ModelInfo`: canonical model representation.  Absent optional fields are
`none`. -/
structure ModelInfo where
  name : Str
  «alias» : Option Str := none
  description : Option Str := none
deriving DecidableEq

/-- The body of the `forEach` in `dedupeModels`, recursing with the `seen`
set of lower-cased names already emitted. -/
def dedupeModelsAux (seen : List Str) : List ModelInfo → List ModelInfo
  | [] => []
  | m :: rest =>
    let name := normalizeText (some m.name)
    if name = [] then dedupeModelsAux seen rest
    else
      let key := toLower name
      if key ∈ seen then dedupeModelsAux seen rest
      else
        let al := normalizeText m.alias
        let descr := normalizeText m.description
        let next : ModelInfo :=
          { name := name,
            «alias» := if al ≠ [] ∧ toLower al ≠ key then some al else none,
            description := if descr ≠ [] then some descr else none }
        next :: dedupeModelsAux (key :: seen) rest

/-- `dedupeModels`: case-insensitive dedupe keyed on trimmed name, first
occurrence wins; trivial aliases and empty descriptions are dropped. -/
def dedupeModels (models : List ModelInfo) : List ModelInfo :=
  dedupeModelsAux [] models

/-- `normalizeExcludedPatterns`: trim, drop empties, case-insensitive dedupe
keeping the first spelling. -/
def normalizeExcludedPatternsAux (seen : List Str) : List Str → List Str
  | [] => []
  | p :: rest =>
    let trimmed := trim p
    if trimmed = [] then normalizeExcludedPatternsAux seen rest
    else
      let key := toLower trimmed
      if key ∈ seen then normalizeExcludedPatternsAux seen rest
      else trimmed :: normalizeExcludedPatternsAux (key :: seen) rest

/-- `normalizeExcludedPatterns` on the (possibly absent) pattern array. -/
def normalizeExcludedPatterns : Option (List Str) → List Str
  | none => []
  | some ps => normalizeExcludedPatternsAux [] ps

/-- `String.prototype.split(sep)` for a one-character separator, with the
accumulator holding the current segment reversed. -/
def splitOnCharAux (c : Char) : Str → Str → List Str
  | [], acc => [acc.reverse]
  | x :: rest, acc =>
    if x = c then acc.reverse :: splitOnCharAux c rest []
    else splitOnCharAux c rest (x :: acc)

/-- `pattern.split(sep)` for a one-character separator. -/
def splitOnChar (c : Char) (s : Str) : List Str := splitOnCharAux c s []

/-- Matcher for the regex tail `.* s₀ .* s₁ … .* sₖ $` built by
`matchExcludePattern` after its first literal segment: some split point must
place the literal `s`, and the rest of the segments must match beyond it. -/
def globTail (s : Str) (rest : List Str) (m : Str) : Bool :=
  match rest with
  | [] => decide (s <:+ m)
  | s2 :: rest2 =>
    (List.range (m.length + 1)).any fun i =>
      decide (s <+: m.drop i) && globTail s2 rest2 (m.drop (i + s.length))

/-- Matcher for the anchored regex `^ s₀ .* s₁ … .* sₖ $` built by
`matchExcludePattern` from the segments of the pattern split on `*`. -/
def globMatch (s : Str) (rest : List Str) (m : Str) : Bool :=
  match rest with
  | [] => decide (m = s)
  | s2 :: rest2 => decide (s <+: m) && globTail s2 rest2 (m.drop s.length)

/-- `matchExcludePattern`: without `*`, case-insensitive equality; with `*`,
the pattern is split on `*`, each literal run is regex-escaped, the runs are
joined with `.*`, anchored at both ends and tested case-insensitively.  The
escaped literal runs match exactly themselves, so the resulting regex is the
anchored glob matcher `globMatch` over the lower-cased segments and model. -/
def matchExcludePattern (model pattern : Str) : Bool :=
  if '*' ∉ pattern then decide (toLower model = toLower pattern)
  else
    match splitOnChar '*' (toLower pattern) with
    | [] => false
    | s :: rest => globMatch s rest (toLower model)

/-- `filterExcludedModels`: drop models whose trimmed name or alias matches
any normalized exclusion pattern. -/
def filterExcludedModels (models : List ModelInfo) (patterns : Option (List Str)) :
    List ModelInfo :=
  let normalizedPatterns := normalizeExcludedPatterns patterns
  if normalizedPatterns = [] then models
  else
    models.filter fun m =>
      let candidates := [normalizeText (some m.name), normalizeText m.alias].filter (· ≠ [])
      if candidates = [] then true
      else
        ¬ candidates.any fun candidate =>
            normalizedPatterns.any fun pattern => matchExcludePattern candidate pattern

/-- One element of the raw API-key array: a plain string, an object exposing
one of the historical key-field variants (absent or nullish fields are
`none`), or any other value (`null`, arrays, numbers, …). -/
inductive ApiKeyItem where
  | plainString (s : Str)
  | obj (dashKey apiKey lowerKey upperKey : Option Str)
  | other
deriving DecidableEq

/-- The value extracted from an `ApiKeyItem` by
`record['api-key'] ?? record.apiKey ?? record.key ?? record.Key`
(first present field wins); `none` when nothing usable is present. -/
def extractApiKeyValue : ApiKeyItem → Option Str
  | .plainString s => some s
  | .obj (some v) _ _ _ => some v
  | .obj none (some v) _ _ => some v
  | .obj none none (some v) _ => some v
  | .obj none none none v => v
  | .other => none

/-- `normalizeApiKeyList` from ApiEndpointsPage: the `seen` set holds
lower-cased keys (case-insensitive dedupe). -/
def normalizeApiKeyListAux (seen : List Str) : List ApiKeyItem → List Str
  | [] => []
  | item :: rest =>
    let apiKey := normalizeText (extractApiKeyValue item)
    if apiKey = [] then normalizeApiKeyListAux seen rest
    else
      let key := toLower apiKey
      if key ∈ seen then normalizeApiKeyListAux seen rest
      else apiKey :: normalizeApiKeyListAux (key :: seen) rest

/-- `normalizeApiKeyList` (ApiEndpointsPage copy, `part_002`). -/
def normalizeApiKeyList (input : List ApiKeyItem) : List Str :=
  normalizeApiKeyListAux [] input

/-- `normalizeApiKeyList` from the page-level copy (`part_000`): the `seen`
set holds the trimmed keys themselves (case-sensitive dedupe). -/
def normalizeApiKeyListPageAux (seen : List Str) : List ApiKeyItem → List Str
  | [] => []
  | item :: rest =>
    let trimmed := normalizeText (extractApiKeyValue item)
    if trimmed = [] ∨ trimmed ∈ seen then normalizeApiKeyListPageAux seen rest
    else trimmed :: normalizeApiKeyListPageAux (trimmed :: seen) rest

/-- `normalizeApiKeyList` (page-level copy, `part_000`). -/
def normalizeApiKeyListPage (input : List ApiKeyItem) : List Str :=
  normalizeApiKeyListPageAux [] input

/-- One configured-model item `{name, alias?}` from the backend config. -/
structure ConfiguredModel where
  name : Str
  «alias» : Option Str := none
deriving DecidableEq

/-- The `map` body of `convertConfiguredModels`: flip a non-trivial alias to
be the primary name; `none` stands for the dropped (`null`) entries. -/
def convertOneConfiguredModel (m : ConfiguredModel) : Option ModelInfo :=
  let rawName := normalizeText (some m.name)
  if rawName = [] then none
  else
    let al := normalizeText m.alias
    if al ≠ [] ∧ toLower al ≠ toLower rawName then
      some { name := al, «alias» := some rawName }
    else some { name := rawName }

/-- `convertConfiguredModels`: map, drop nulls, dedupe.  `none` models the
non-array (`undefined`) input. -/
def convertConfiguredModels (models : Option (List ConfiguredModel)) : List ModelInfo :=
  match models with
  | none => []
  | some l => dedupeModels (l.filterMap convertOneConfiguredModel)

/-- One OpenAI-style model item `{id, display_name?}` from an auth API. -/
structure ApiModel where
  id : Str
  display_name : Option Str := none
deriving DecidableEq

/-- The `map` body of `normalizeAuthApiModels`: keep the raw id as primary,
attach a non-trivial display name as the alias. -/
def normalizeOneAuthApiModel (m : ApiModel) : Option ModelInfo :=
  let id := normalizeText (some m.id)
  if id = [] then none
  else
    let al := normalizeText m.display_name
    if al ≠ [] ∧ toLower al ≠ toLower id then
      some { name := id, «alias» := some al }
    else some { name := id }

/-- `normalizeAuthApiModels`: map, drop nulls, dedupe. -/
def normalizeAuthApiModels (models : List ApiModel) : List ModelInfo :=
  dedupeModels (models.filterMap normalizeOneAuthApiModel)

/-- A JS record (string-keyed object) as an association list; `recordSet`
overwrites an existing key. -/
def recordSet (r : List (Str × Str)) (k v : Str) : List (Str × Str) :=
  if (r.find? fun p => p.1 = k).isSome then
    r.map fun p => if p.1 = k then (k, v) else p
  else r ++ [(k, v)]

/-- Record lookup (`r[k]`, `undefined` when absent). -/
def recordGet (r : List (Str × Str)) (k : Str) : Option Str :=
  (r.find? fun p => p.1 = k).map fun p => p.2

/-- One backend OAuth model-alias entry `{name, alias}`. -/
structure OAuthModelAliasEntry where
  name : Str
  «alias» : Str
deriving DecidableEq

/-- `buildAliasLookup`: fold the entries into a record keyed by lower-cased
trimmed name, skipping entries with an empty name or alias. -/
def buildAliasLookup (entries : Option (List OAuthModelAliasEntry)) : List (Str × Str) :=
  match entries with
  | none => []
  | some l =>
    l.foldl
      (fun lookup entry =>
        let name := toLower (normalizeText (some entry.name))
        let al := normalizeText (some entry.«alias»)
        if name = [] ∨ al = [] then lookup else recordSet lookup name al)
      []

/-- `applyAliasLookup`: rename models whose lower-cased trimmed name appears
in the lookup, demoting the raw name to the alias slot, then dedupe. -/
def applyAliasLookup (models : List ModelInfo) (lookup : Option (List (Str × Str))) :
    List ModelInfo :=
  match lookup with
  | none => dedupeModels models
  | some lk =>
    if lk = [] then dedupeModels models
    else
      let mapped := models.map fun m =>
        let rawName := normalizeText (some m.name)
        if rawName = [] then m
        else
          let mappedAlias := normalizeText (recordGet lk (toLower rawName))
          if mappedAlias = [] then m
          else if toLower mappedAlias = toLower rawName then m
          else { m with name := mappedAlias, «alias» := some rawName }
      dedupeModels mapped

/-- One stored credential-file record.  `provider`/`type` use `[]` for the
absent-or-empty case (the source reads them through `||`, which treats the
empty string and `undefined` alike). -/
structure AuthFileItem where
  name : Str
  provider : Str := []
  type : Str := []
  disabled : FlagValue := .undefined
  unavailable : FlagValue := .undefined
deriving DecidableEq

/-- One group of the `grouped` map in `buildAuthProviderEntries`.  `order` is
assigned on first sighting; `files` is the insertion-ordered `Set` of file
names. -/
structure AuthGroup where
  key : Str
  label : Str
  order : Nat
  files : List Str
deriving DecidableEq

/-- The provider key a credential file is grouped under:
`normalizeProviderKey(normalizeText(file.provider || file.type))`. -/
def authFileRawProvider (file : AuthFileItem) : Str :=
  normalizeText (some (if file.provider ≠ [] then file.provider else file.type))

/-- The `forEach` body of `buildAuthProviderEntries`: skip disabled or
unavailable files, group by lower-cased provider key, record file names in
first-sighting order. -/
def addAuthFile (groups : List AuthGroup) (file : AuthFileItem) : List AuthGroup :=
  if isTruthyFlag file.disabled || isTruthyFlag file.unavailable then groups
  else
    let rawProvider := authFileRawProvider file
    let providerKey := toLower rawProvider
    if providerKey = [] then groups
    else
      let fileName := normalizeText (some file.name)
      if fileName = [] then groups
      else if (groups.find? fun g => g.key = providerKey).isSome then
        groups.map fun g =>
          if g.key = providerKey then
            { g with files := if fileName ∈ g.files then g.files else g.files ++ [fileName] }
          else g
      else
        groups ++ [{ key := providerKey, label := rawProvider,
                     order := groups.length, files := [fileName] }]

/-- The fully built `grouped` map of `buildAuthProviderEntries`. -/
def buildAuthGroups (authFiles : List AuthFileItem) : List AuthGroup :=
  authFiles.foldl addAuthFile []

/-- Provenance tag of a provider entry. -/
inductive SourceKind where
  | authProxy
  | configuredApi
deriving DecidableEq

/-- `EndpointProviderEntry`, restricted to the fields the pipeline reads. -/
structure EndpointProviderEntry where
  id : Str
  sourceKind : SourceKind
  providerKey : Str
  name : Str
  baseUrl : Str := []
  keyOptions : List Str := []
  order : Nat := 0
  configuredModels : Option (List ModelInfo) := none
  authFileNames : Option (List Str) := none
  aliasLookup : Option (List (Str × Str)) := none
  excludedPatterns : Option (List Str) := none
deriving DecidableEq

/-- `buildAuthProviderEntries`: group the credential files, sort the groups
by their first-sighting order, and emit one entry per provider group. -/
def buildAuthProviderEntries (authFiles : List AuthFileItem)
    (aliasMap : List (Str × List OAuthModelAliasEntry))
    (excludedMap : List (Str × List Str))
    (baseUrl : Str) (keyOptions : List Str) : List EndpointProviderEntry :=
  ((buildAuthGroups authFiles).mergeSort fun a b => a.order ≤ b.order).map fun g =>
    { id := str "auth:" ++ g.key,
      sourceKind := .authProxy,
      providerKey := g.key,
      name := g.label,
      baseUrl := baseUrl,
      keyOptions := keyOptions,
      order := g.order,
      authFileNames := some g.files,
      aliasLookup := some (buildAliasLookup ((aliasMap.find? fun p => p.1 = g.key).map fun p => p.2)),
      excludedPatterns := some (normalizeExcludedPatterns ((excludedMap.find? fun p => p.1 = g.key).map fun p => p.2)) }

/-- The backend responses a single `fetchAuthProxyModels` run can observe:
the provider-level model-definitions response and, per credential-file name,
that file's model-listing response.  Errors are abstracted to their display
string. -/
structure FetchEnv where
  definitions : Except Str (List ApiModel)
  fileModels : Str → Except Str (List ApiModel)

/-- The models collected from the settled per-file fallback calls (fulfilled
results only, in file order, each normalized). -/
def collectSettled (results : List (Except Str (List ApiModel))) : List ModelInfo :=
  results.foldl
    (fun acc r => match r with
      | .ok v => acc ++ normalizeAuthApiModels v
      | .error _ => acc)
    []

/-- The closing line of `fetchAuthProxyModels`: apply the alias lookup and
then the exclusion filtering to the resolved model set. -/
def finalizeFetchedModels (entry : EndpointProviderEntry) (models : List ModelInfo) :
    List ModelInfo :=
  filterExcludedModels (applyAliasLookup models entry.aliasLookup) entry.excludedPatterns

/-- `fetchAuthProxyModels`: try the provider-level definitions call; if it
fails or normalizes to zero models, fall back to the per-file listing calls,
keeping whatever succeeds; re-throw the original definitions error only when
it exists and no per-file call succeeded; finally apply the alias lookup and
exclusion filtering. -/
def fetchAuthProxyModels (entry : EndpointProviderEntry) (env : FetchEnv) :
    Except Str (List ModelInfo) :=
  let providerKey := normalizeProviderKey (some entry.providerKey)
  if providerKey = [] then .ok []
  else
    let firstTry : List ModelInfo × Option Str :=
      match env.definitions with
      | .ok definitionModels => (normalizeAuthApiModels definitionModels, none)
      | .error e => ([], some e)
    let models := firstTry.1
    let definitionError := firstTry.2
    let fileNames := entry.authFileNames.getD []
    if models = [] ∧ fileNames ≠ [] then
      let settled := fileNames.map fun fileName => env.fileModels fileName
      let hasFulfilled := settled.any fun r => r.isOk
      let fallbackModels := dedupeModels (collectSettled settled)
      match definitionError with
      | some e =>
        if ¬ hasFulfilled then .error e
        else .ok (finalizeFetchedModels entry fallbackModels)
      | none => .ok (finalizeFetchedModels entry fallbackModels)
    else .ok (finalizeFetchedModels entry models)

/-- Status of a per-provider models record. -/
inductive RefreshStatus where
  | idle
  | loading
  | success
  | error
deriving DecidableEq

/-- `ProviderModelsState`. -/
structure ProviderModelsState where
  status : RefreshStatus
  models : List ModelInfo
  error : Option Str := none
deriving DecidableEq

/-- A JS object used as a string-keyed map; `{...prev, [k]: v}` keeps an
existing key in place and appends a new one.  Object keys are unique, so
overwriting the first (only) occurrence is the spread semantics. -/
def mapSet {α : Type} : List (Str × α) → Str → α → List (Str × α)
  | [], k, v => [(k, v)]
  | p :: rest, k, v => if p.1 = k then (k, v) :: rest else p :: mapSet rest k v

/-- Map lookup (`m[k]`, `undefined` when absent). -/
def mapGet {α : Type} : List (Str × α) → Str → Option α
  | [], _ => none
  | p :: rest, k => if p.1 = k then some p.2 else mapGet rest k

/-- The mutable state the refresh orchestrator owns: the
`providerFetchTokenRef` counter map and the `modelsByProvider` map. -/
structure OrchestratorState where
  tokens : List (Str × Nat)
  modelsByProvider : List (Str × ProviderModelsState)
deriving DecidableEq

/-- The models previously known for a provider id
(`prev[id]?.models ?? []`). -/
def prevModels (s : OrchestratorState) (id : Str) : List ModelInfo :=
  ((mapGet s.modelsByProvider id).map fun st => st.models).getD []

/-- The synchronous opening of `refreshSingleProviderModels`: bump and store
the per-provider token, and mark the provider `loading` while keeping its
previously known models.  Returns the new state and the captured token. -/
def startRefresh (s : OrchestratorState) (id : Str) : OrchestratorState × Nat :=
  let nextToken := ((mapGet s.tokens id).getD 0) + 1
  let loadingState : ProviderModelsState := { status := .loading, models := prevModels s id }
  ({ tokens := mapSet s.tokens id nextToken,
     modelsByProvider := mapSet s.modelsByProvider id loadingState },
   nextToken)

/-- The completion of `refreshSingleProviderModels`: if a newer refresh for
this id has started (stored token differs from the captured one), discard
the result; otherwise publish `success` with the fetched models, or `error`
with the display message while keeping the previously known models. -/
def completeRefresh (s : OrchestratorState) (id : Str) (token : Nat)
    (result : Except Str (List ModelInfo)) : OrchestratorState :=
  if mapGet s.tokens id ≠ some token then s
  else
    match result with
    | .ok models =>
      let published : ProviderModelsState := { status := .success, models := models }
      { s with modelsByProvider := mapSet s.modelsByProvider id published }
    | .error message =>
      let published : ProviderModelsState :=
        { status := .error, models := prevModels s id, error := some message }
      { s with modelsByProvider := mapSet s.modelsByProvider id published }

/-- The synchronous opening of `refreshAllProviderModels`: an empty entry
list clears the map; otherwise a fresh map is built that marks every given
entry id `loading` while keeping its previously known models. -/
def refreshAllLoadingStep (entryIds : List Str) (prev : List (Str × ProviderModelsState)) :
    List (Str × ProviderModelsState) :=
  if entryIds = [] then []
  else
    entryIds.foldl
      (fun next id =>
        let loadingState : ProviderModelsState :=
          { status := .loading,
            models := ((mapGet prev id).map fun st => st.models).getD [] }
        mapSet next id loadingState)
      []

/-- The four thinking levels. -/
inductive ThinkingLevel where
  | low
  | medium
  | high
  | xhigh
deriving DecidableEq

/-- The literal string of a thinking level. -/
def thinkingLevelStr : ThinkingLevel → Str
  | .low => str "low"
  | .medium => str "medium"
  | .high => str "high"
  | .xhigh => str "xhigh"

/-- `THINKING_LEVEL_SET.has` on an arbitrary string. -/
def lookupThinkingLevel (s : Str) : Option ThinkingLevel :=
  if s = str "low" then some .low
  else if s = str "medium" then some .medium
  else if s = str "high" then some .high
  else if s = str "xhigh" then some .xhigh
  else none

/-- A character allowed inside the `([^()]+)` capture group (a negated
class, so line terminators are allowed here). -/
def parenFreeChar (ch : Char) : Bool := ch ≠ '(' ∧ ch ≠ ')'

/-- A JS line terminator: the regex metacharacter `.` (used in the `(.*)`
group, flagless) matches any character except these. -/
def isLineTerminator (c : Char) : Bool :=
  c = '\n' ∨ c = '\r' ∨ c = '\u2028' ∨ c = '\u2029'

/-- `regexCaptureParens` on the reversed subject. -/
def regexCaptureRev : Str → Option (Str × Str)
  | [] => none
  | c :: rest =>
    if c ≠ ')' then none
    else
      match rest.drop (rest.takeWhile parenFreeChar).length with
      | '(' :: preRev =>
        if rest.takeWhile parenFreeChar = [] then none
        else if preRev.any isLineTerminator then none
        else some (preRev.reverse, (rest.takeWhile parenFreeChar).reverse)
      | _ => none

/-- The capture groups of a match of `^(.*)\(([^()]+)\)$`: the string must
end in `)`; the greedy `(.*)` pushes the opening `(` as late as possible, so
group 2 is the maximal paren-free run adjacent to the final `)` (and must be
non-empty), the character before that run must be `(`, and everything before
that `(` must be matched by `.*`, which excludes line terminators. -/
def regexCaptureParens (s : Str) : Option (Str × Str) := regexCaptureRev s.reverse

/-- `parseModelWithThinking`: split a model value of the form
`base(level)` into its base model and thinking level; anything else is a
plain base model. -/
def parseModelWithThinking (value : Str) : Str × Option ThinkingLevel :=
  let normalized := trim value
  if normalized = [] then ([], none)
  else
    match regexCaptureParens normalized with
    | none => (normalized, none)
    | some (m1, m2) =>
      let baseModel := normalizeText (some m1)
      let rawLevel := toLower (normalizeText (some m2))
      match lookupThinkingLevel rawLevel with
      | some lvl => if baseModel ≠ [] then (baseModel, some lvl) else (normalized, none)
      | none => (normalized, none)

/-- `formatModelWithThinking`: append `(level)` to a non-empty trimmed base
model. -/
def formatModelWithThinking (baseModel : Str) (thinking : Option ThinkingLevel) : Str :=
  let normalized := trim baseModel
  if normalized = [] then []
  else
    match thinking with
    | none => normalized
    | some lvl => normalized ++ '(' :: (thinkingLevelStr lvl ++ [')'])

/-!
Specification-side definitions.  These follow the words of the spec (and
the denotation of the wildcard regex), independently of the implementation,
so that the implementation can be proved to refine them.
-/

/-- Spec-side: generic order-preserving first-occurrence deduplication of a
key list, comparing keys through `f`. -/
def dedupFirstByAux (f : Str → Str) (seen : List Str) : List Str → List Str
  | [] => []
  | k :: rest =>
    if f k ∈ seen then dedupFirstByAux f seen rest
    else k :: dedupFirstByAux f (f k :: seen) rest

/-- Spec-side: the non-empty trimmed keys extracted from a raw API-key
array, in order and before any deduplication. -/
def extractedApiKeys (input : List ApiKeyItem) : List Str :=
  input.filterMap fun item =>
    let k := normalizeText (extractApiKeyValue item)
    if k = [] then none else some k

/-- Spec-side: the lower-cased non-empty trimmed model names of a list, in
order and before any deduplication. -/
def modelNameKeys (l : List ModelInfo) : List Str :=
  (l.map fun m => toLower (trim m.name)).filter fun k => k ≠ []

/-- Spec-side: a model record already in the canonical form `dedupeModels`
emits: trimmed non-empty name, trimmed non-trivial alias when present,
trimmed non-empty description when present. -/
def canonicalModel (m : ModelInfo) : Prop :=
  trim m.name = m.name ∧ m.name ≠ [] ∧
    (∀ a ∈ m.«alias», trim a = a ∧ a ≠ [] ∧ toLower a ≠ toLower m.name) ∧
    (∀ d ∈ m.description, trim d = d ∧ d ≠ [])

/-- Spec-side: a credential file contributes to the provider entries when
its flags are not truthy and it has a usable provider key and file name. -/
def contributingAuthFile (f : AuthFileItem) : Prop :=
  isTruthyFlag f.disabled = false ∧ isTruthyFlag f.unavailable = false ∧
    toLower (authFileRawProvider f) ≠ [] ∧ normalizeText (some f.name) ≠ []

/-!  Helper lemmas about the string primitives. -/

theorem dropWhile_idem (p : Char → Bool) (l : Str) :
    List.dropWhile p (List.dropWhile p l) = List.dropWhile p l := by
  induction l with
  | nil => rfl
  | cons x xs ih =>
    by_cases h : p x
    · simp [List.dropWhile_cons, h, ih]
    · simp [List.dropWhile_cons, h]

theorem dropWhile_isSuffix (p : Char → Bool) (l : Str) : List.dropWhile p l <:+ l := by
  induction l with
  | nil => simp
  | cons x xs ih =>
    by_cases h : p x
    · simp only [List.dropWhile_cons, h, if_true]
      exact ih.trans (List.suffix_cons x xs)
    · simp [List.dropWhile_cons, h]

theorem trimLeft_idem (s : Str) : trimLeft (trimLeft s) = trimLeft s :=
  dropWhile_idem isSpaceChar s

theorem trimRight_idem (s : Str) : trimRight (trimRight s) = trimRight s := by
  simp [trimRight, List.reverse_reverse, dropWhile_idem]

theorem trimLeft_isSuffix (s : Str) : trimLeft s <:+ s :=
  dropWhile_isSuffix isSpaceChar s

theorem trimRight_isPrefix (s : Str) : trimRight s <+: s := by
  obtain ⟨t, ht⟩ := dropWhile_isSuffix isSpaceChar s.reverse
  refine ⟨t.reverse, ?_⟩
  show (List.dropWhile isSpaceChar s.reverse).reverse ++ t.reverse = s
  rw [← List.reverse_append, ht, List.reverse_reverse]

theorem trimLeft_cons_of_not_space {c : Char} (cs : Str) (h : isSpaceChar c = false) :
    trimLeft (c :: cs) = c :: cs := by
  simp [trimLeft, List.dropWhile_cons, h]

theorem not_space_head_of_trimLeft_eq {c : Char} {cs : Str}
    (h : trimLeft (c :: cs) = c :: cs) : isSpaceChar c = false := by
  by_contra hc
  have hc2 : isSpaceChar c = true := by simpa using hc
  have heq : trimLeft (c :: cs) = trimLeft cs := by
    simp [trimLeft, List.dropWhile_cons, hc2]
  have hlen : (trimLeft cs).length ≤ cs.length :=
    (trimLeft_isSuffix cs).sublist.length_le
  rw [h] at heq
  have : (c :: cs).length = cs.length + 1 := rfl
  rw [← heq] at hlen
  simp at hlen

theorem trimLeft_eq_self_of_isPrefix {s t : Str} (hs : trimLeft s = s) (h : t <+: s) :
    trimLeft t = t := by
  cases t with
  | nil => rfl
  | cons c cs =>
    cases s with
    | nil => simp at h
    | cons c2 cs2 =>
      obtain ⟨r, hr⟩ := h
      have hc : c = c2 := by
        have := congrArg (fun l => l.head?) hr
        simpa using this
      subst hc
      exact trimLeft_cons_of_not_space cs (not_space_head_of_trimLeft_eq hs)

theorem trim_idem (s : Str) : trim (trim s) = trim s := by
  unfold trim
  have h2 : trimLeft (trimRight (trimLeft s)) = trimRight (trimLeft s) :=
    trimLeft_eq_self_of_isPrefix (trimLeft_idem s) (trimRight_isPrefix (trimLeft s))
  rw [h2, trimRight_idem]

theorem trimLeft_eq_self_of_trim_eq {s : Str} (h : trim s = s) : trimLeft s = s := by
  have l1 : (trim s).length ≤ (trimLeft s).length :=
    (trimRight_isPrefix (trimLeft s)).sublist.length_le
  have l2 : (trimLeft s).length ≤ s.length := (trimLeft_isSuffix s).sublist.length_le
  rw [h] at l1
  exact (trimLeft_isSuffix s).sublist.eq_of_length (by omega)

theorem trimRight_eq_self_of_trim_eq {s : Str} (h : trim s = s) : trimRight s = s := by
  have hl : trimLeft s = s := trimLeft_eq_self_of_trim_eq h
  calc trimRight s = trimRight (trimLeft s) := by rw [hl]
    _ = s := h

theorem trimRight_append_right {s : Str} {c : Char} (h : isSpaceChar c = false) :
    trimRight (s ++ [c]) = s ++ [c] := by
  unfold trimRight
  rw [List.reverse_append]
  simp only [List.reverse_singleton, List.singleton_append, List.dropWhile_cons, h]
  simp

theorem normalizeText_idem (s : Str) : normalizeText (some (normalizeText (some s))) = normalizeText (some s) :=
  trim_idem s

/-!  C10: `maskKey`. -/

/-- C10: for keys of length at most 8, `maskKey` is the constant
eight-bullet string; for longer keys it is the first five characters, then
`min(length − 8, 16)` bullets, then the last four characters; hence a key
of length exactly 9 is a subsequence of its own mask, i.e. every character
of the key appears in the masked output in order. -/
theorem maskKey_spec :
    (∀ key : Str, key.length ≤ 8 → maskKey key = List.replicate 8 bullet) ∧
    (∀ key : Str, 9 ≤ key.length →
      maskKey key =
        key.take 5 ++ List.replicate (min (key.length - 8) 16) bullet ++
          key.drop (key.length - 4)) ∧
    (∀ key : Str, key.length = 9 → List.Sublist key (maskKey key)) := by
  have hgen : ∀ key : Str, 9 ≤ key.length →
      maskKey key =
        key.take 5 ++ List.replicate (min (key.length - 8) 16) bullet ++
          key.drop (key.length - 4) := by
    intro key h9
    have hnotle : ¬ key.length ≤ 8 := by omega
    have h0 : jsIndex key.length 0 = 0 := by simp [jsIndex]
    have h5 : jsIndex key.length 5 = 5 := by
      simp only [jsIndex]
      norm_num
      omega
    have h4 : jsIndex key.length (-4) = key.length - 4 := by
      simp only [jsIndex]
      norm_num
      omega
    have hslice : jsSlice key 0 5 = key.take 5 := by
      simp [jsSlice, h0, h5]
    have hsliceEnd : jsSliceEnd key (-4) = key.drop (key.length - 4) := by
      simp [jsSliceEnd, h4]
    unfold maskKey
    rw [if_neg hnotle, hslice, hsliceEnd]
  refine ⟨?_, hgen, ?_⟩
  · intro key h8
    unfold maskKey
    rw [if_pos h8]
  · intro key h9
    have heq : maskKey key = key.take 5 ++ List.replicate 1 bullet ++ key.drop 5 := by
      rw [hgen key (by omega), h9]
      norm_num
    rw [heq]
    conv_lhs => rw [← List.take_append_drop 5 key]
    rw [List.append_assoc]
    refine List.Sublist.append_left ?_ (key.take 5)
    have : List.replicate 1 bullet ++ key.drop 5 = bullet :: key.drop 5 := rfl
    rw [this]
    exact List.sublist_cons_self bullet (key.drop 5)

/-!  C6: `matchExcludePattern`. -/

/-- Closed witness for `maskKey_spec` at concrete keys of lengths 8 and 9. -/
theorem maskKey_spec_witness :
    maskKey (str "12345678") = List.replicate 8 bullet ∧
    maskKey (str "123456789") =
      (str "123456789").take 5 ++ List.replicate 1 bullet ++ (str "123456789").drop 5 ∧
    List.Sublist (str "123456789") (maskKey (str "123456789")) := by
  refine ⟨maskKey_spec.1 (str "12345678") (by decide), ?_, maskKey_spec.2.2 (str "123456789") (by decide)⟩
  have h := maskKey_spec.2.1 (str "123456789") (by decide)
  simpa using h

/-!  C9: thinking-level suffix parse/format round-trip. -/

theorem takeWhile_append_all {p : Char → Bool} {A : Str} (B : Str)
    (h : ∀ c ∈ A, p c = true) :
    List.takeWhile p (A ++ B) = A ++ List.takeWhile p B := by
  induction A with
  | nil => simp
  | cons x xs ih =>
    have hx : p x = true := h x (by simp)
    simp only [List.cons_append, List.takeWhile_cons, hx, if_true]
    rw [ih fun c hc => h c (List.mem_cons_of_mem x hc)]

theorem any_reverse_eq (p : Char → Bool) (l : Str) : l.reverse.any p = l.any p := by
  cases h : l.any p with
  | true =>
    obtain ⟨x, hx, hpx⟩ := List.any_eq_true.mp h
    exact List.any_eq_true.mpr ⟨x, List.mem_reverse.mpr hx, hpx⟩
  | false =>
    rw [List.any_eq_false] at h
    rw [List.any_eq_false]
    intro x hx
    exact h x (List.mem_reverse.mp hx)

theorem regexCaptureRev_eval (L base2 : Str) (hLne : L ≠ [])
    (hLq : ∀ c ∈ L, parenFreeChar c = true)
    (hpre : base2.any isLineTerminator = false) :
    regexCaptureRev (')' :: (L ++ '(' :: base2)) = some (base2.reverse, L.reverse) := by
  have htake : List.takeWhile parenFreeChar (L ++ '(' :: base2) = L := by
    rw [takeWhile_append_all _ hLq]
    have : List.takeWhile parenFreeChar ('(' :: base2) = [] := by
      simp [List.takeWhile_cons, parenFreeChar]
    rw [this, List.append_nil]
  have hdrop : (L ++ '(' :: base2).drop L.length = '(' :: base2 := List.drop_left L _
  simp only [regexCaptureRev]
  rw [htake, hdrop]
  simp [hLne, hpre]

theorem formatModelWithThinking_eq (base : Str) (lvl : ThinkingLevel)
    (hbase : trim base = base) (hne : base ≠ []) :
    formatModelWithThinking base (some lvl) =
      base ++ '(' :: (thinkingLevelStr lvl ++ [')']) := by
  unfold formatModelWithThinking
  rw [hbase, if_neg hne]

theorem parse_format_roundtrip (base : Str) (lvl : ThinkingLevel)
    (hbase : trim base = base) (hne : base ≠ [])
    (hLT : base.any isLineTerminator = false) :
    parseModelWithThinking (formatModelWithThinking base (some lvl)) = (base, some lvl) := by
  have hLne : thinkingLevelStr lvl ≠ [] := by cases lvl <;> decide
  have hLq : ∀ c ∈ thinkingLevelStr lvl, parenFreeChar c = true := by
    cases lvl <;> decide
  have hLrevq : ∀ c ∈ (thinkingLevelStr lvl).reverse, parenFreeChar c = true := by
    intro c hc
    exact hLq c (List.mem_reverse.mp hc)
  have hLrevne : (thinkingLevelStr lvl).reverse ≠ [] := by
    intro h
    exact hLne (by simpa using congrArg List.reverse h)
  have hlook : lookupThinkingLevel (toLower (trim (thinkingLevelStr lvl))) = some lvl := by
    cases lvl <;> decide
  rw [formatModelWithThinking_eq base lvl hbase hne]
  -- the formatted string is already trimmed
  have hheadbase : trimLeft base = base := trimLeft_eq_self_of_trim_eq hbase
  obtain ⟨c, cs, hb⟩ : ∃ c cs, base = c :: cs := by
    cases base with
    | nil => exact absurd rfl hne
    | cons c cs => exact ⟨c, cs, rfl⟩
  have hcns : isSpaceChar c = false := by
    apply @not_space_head_of_trimLeft_eq c cs
    rw [← hb]
    exact hheadbase
  have h1 : trimLeft (base ++ '(' :: (thinkingLevelStr lvl ++ [')'])) =
      base ++ '(' :: (thinkingLevelStr lvl ++ [')']) := by
    rw [hb, List.cons_append]
    exact trimLeft_cons_of_not_space _ hcns
  have hassoc : base ++ '(' :: (thinkingLevelStr lvl ++ [')']) =
      (base ++ '(' :: thinkingLevelStr lvl) ++ [')'] := by
    simp
  have h2 : trimRight (base ++ '(' :: (thinkingLevelStr lvl ++ [')'])) =
      base ++ '(' :: (thinkingLevelStr lvl ++ [')']) := by
    rw [hassoc, trimRight_append_right (by decide)]
  have htrim : trim (base ++ '(' :: (thinkingLevelStr lvl ++ [')'])) =
      base ++ '(' :: (thinkingLevelStr lvl ++ [')']) := by
    unfold trim
    rw [h1, h2]
  have hfullne : base ++ '(' :: (thinkingLevelStr lvl ++ [')']) ≠ [] := by
    rw [hb]
    simp
  have hrev : (base ++ '(' :: (thinkingLevelStr lvl ++ [')'])).reverse =
      ')' :: ((thinkingLevelStr lvl).reverse ++ '(' :: base.reverse) := by
    simp [List.reverse_append]
  have hrevLT : base.reverse.any isLineTerminator = false := by
    rw [any_reverse_eq]
    exact hLT
  have hcap : regexCaptureParens (base ++ '(' :: (thinkingLevelStr lvl ++ [')'])) =
      some (base, thinkingLevelStr lvl) := by
    unfold regexCaptureParens
    rw [hrev, regexCaptureRev_eval _ _ hLrevne hLrevq hrevLT]
    simp
  unfold parseModelWithThinking
  simp only [htrim, hcap]
  rw [if_neg hfullne]
  simp only [normalizeText, hbase, hlook]
  rw [if_pos hne]

/-- C9 counterexample: the original claim quantifies over every non-empty
trimmed base model name, but the source regex `^(.*)\(([^()]+)\)$` is
flagless, so its `(.*)` group cannot match a line terminator: for the
non-empty trimmed base `"a\nb"` the formatted string fails to match and
parses back to the whole literal with no thinking level, not to the
original pair. -/
theorem parseFormatThinking_counterexample :
    trim (str "a\nb") = str "a\nb" ∧ str "a\nb" ≠ [] ∧
    formatModelWithThinking (str "a\nb") (some ThinkingLevel.high) = str "a\nb(high)" ∧
    parseModelWithThinking (formatModelWithThinking (str "a\nb") (some ThinkingLevel.high)) =
      (str "a\nb(high)", none) ∧
    parseModelWithThinking (formatModelWithThinking (str "a\nb") (some ThinkingLevel.high)) ≠
      (str "a\nb", some ThinkingLevel.high) := by
  refine ⟨by decide, by decide, by decide, by decide, by decide⟩

/-- C9 (amended): `"gpt-5(high)"` parses to base `gpt-5` with thinking
level `high`, and formatting that pair reproduces the literal string; for
every non-empty trimmed base model that contains no line terminator (which
the flagless `(.*)` group cannot match) and every thinking level, parsing
the formatted `base(level)` string recovers exactly that base and level. -/
theorem parseFormatThinking_spec :
    parseModelWithThinking (str "gpt-5(high)") = (str "gpt-5", some ThinkingLevel.high) ∧
    formatModelWithThinking (str "gpt-5") (some ThinkingLevel.high) = str "gpt-5(high)" ∧
    (∀ base : Str, ∀ lvl : ThinkingLevel, trim base = base → base ≠ [] →
      base.any isLineTerminator = false →
      parseModelWithThinking (formatModelWithThinking base (some lvl)) = (base, some lvl)) :=
  ⟨by decide, by decide, parse_format_roundtrip⟩

/-- Closed witness for `parseFormatThinking_spec`: the round trip at a
concrete base model and level. -/
theorem parseFormatThinking_spec_witness :
    parseModelWithThinking (formatModelWithThinking (str "claude-x") (some ThinkingLevel.xhigh)) =
      (str "claude-x", some ThinkingLevel.xhigh) :=
  parseFormatThinking_spec.2.2 (str "claude-x") ThinkingLevel.xhigh (by decide) (by decide)
    (by decide)

/-!  C4: the inverted-alias conventions of the two model normalizers. -/

/-- C4: a configured model whose trimmed alias is non-empty and differs
case-insensitively from its trimmed name maps to `{name: alias, alias:
original name}`; an auth-file API model whose trimmed display name is
non-empty and differs case-insensitively from its trimmed id maps to
`{name: id, alias: display_name}`; the two documented examples evaluate
accordingly end to end. -/
theorem modelAliasConventions_spec :
    (∀ m : ConfiguredModel, normalizeText (some m.name) ≠ [] →
       normalizeText m.«alias» ≠ [] →
       toLower (normalizeText m.«alias») ≠ toLower (normalizeText (some m.name)) →
       convertOneConfiguredModel m =
         some { name := normalizeText m.«alias»,
                «alias» := some (normalizeText (some m.name)) }) ∧
    (∀ m : ApiModel, normalizeText (some m.id) ≠ [] →
       normalizeText m.display_name ≠ [] →
       toLower (normalizeText m.display_name) ≠ toLower (normalizeText (some m.id)) →
       normalizeOneAuthApiModel m =
         some { name := normalizeText (some m.id),
                «alias» := some (normalizeText m.display_name) }) ∧
    convertConfiguredModels (some [{ name := str "gpt-4", «alias» := some (str "GPT-4 Turbo") }]) =
      [{ name := str "GPT-4 Turbo", «alias» := some (str "gpt-4") }] ∧
    normalizeAuthApiModels [{ id := str "gpt-4", display_name := some (str "GPT-4 Turbo") }] =
      [{ name := str "gpt-4", «alias» := some (str "GPT-4 Turbo") }] := by
  refine ⟨?_, ?_, by decide, by decide⟩
  · intro m h1 h2 h3
    simp only [convertOneConfiguredModel]
    rw [if_neg h1, if_pos ⟨h2, h3⟩]
  · intro m h1 h2 h3
    simp only [normalizeOneAuthApiModel]
    rw [if_neg h1, if_pos ⟨h2, h3⟩]

/-- Closed witness for `modelAliasConventions_spec`: both per-item
conventions applied at the documented example items. -/
theorem modelAliasConventions_spec_witness :
    convertOneConfiguredModel { name := str "gpt-4", «alias» := some (str "GPT-4 Turbo") } =
      some { name := normalizeText (some (str "GPT-4 Turbo")),
             «alias» := some (normalizeText (some (str "gpt-4"))) } ∧
    normalizeOneAuthApiModel { id := str "gpt-4", display_name := some (str "GPT-4 Turbo") } =
      some { name := normalizeText (some (str "gpt-4")),
             «alias» := some (normalizeText (some (str "GPT-4 Turbo"))) } :=
  ⟨modelAliasConventions_spec.1 _ (by decide) (by decide) (by decide),
   modelAliasConventions_spec.2.1 _ (by decide) (by decide) (by decide)⟩

/-!  C2: `normalizeApiKeyList` (both copies). -/

theorem normalizeApiKeyListAux_eq (input : List ApiKeyItem) : ∀ seen : List Str,
    normalizeApiKeyListAux seen input = dedupFirstByAux toLower seen (extractedApiKeys input) := by
  induction input with
  | nil => intro seen; rfl
  | cons item rest ih =>
    intro seen
    by_cases h : normalizeText (extractApiKeyValue item) = []
    · simp [normalizeApiKeyListAux, extractedApiKeys, List.filterMap_cons, h, ih,
        extractedApiKeys]
    · by_cases h2 : toLower (normalizeText (extractApiKeyValue item)) ∈ seen
      · simp [normalizeApiKeyListAux, extractedApiKeys, List.filterMap_cons, h, h2,
          dedupFirstByAux, ih]
      · simp [normalizeApiKeyListAux, extractedApiKeys, List.filterMap_cons, h, h2,
          dedupFirstByAux, ih]

theorem normalizeApiKeyListPageAux_eq (input : List ApiKeyItem) : ∀ seen : List Str,
    normalizeApiKeyListPageAux seen input = dedupFirstByAux id seen (extractedApiKeys input) := by
  induction input with
  | nil => intro seen; rfl
  | cons item rest ih =>
    intro seen
    by_cases h : normalizeText (extractApiKeyValue item) = []
    · simp [normalizeApiKeyListPageAux, extractedApiKeys, List.filterMap_cons, h, ih]
    · by_cases h2 : normalizeText (extractApiKeyValue item) ∈ seen
      · simp [normalizeApiKeyListPageAux, extractedApiKeys, List.filterMap_cons, h, h2,
          dedupFirstByAux, ih]
      · simp [normalizeApiKeyListPageAux, extractedApiKeys, List.filterMap_cons, h, h2,
          dedupFirstByAux, ih]

theorem dedupFirstByAux_sublist (f : Str → Str) (l : List Str) : ∀ seen : List Str,
    List.Sublist (dedupFirstByAux f seen l) l := by
  induction l with
  | nil => intro seen; simp [dedupFirstByAux]
  | cons k rest ih =>
    intro seen
    simp only [dedupFirstByAux]
    by_cases h : f k ∈ seen
    · rw [if_pos h]
      exact (ih seen).trans (List.sublist_cons_self k rest)
    · rw [if_neg h]
      exact (ih (f k :: seen)).cons₂ k

theorem extractedApiKeys_trimmed (input : List ApiKeyItem) :
    ∀ k ∈ extractedApiKeys input, trim k = k ∧ k ≠ [] := by
  intro k hk
  simp only [extractedApiKeys, List.mem_filterMap] at hk
  obtain ⟨item, _, hitem⟩ := hk
  by_cases h : normalizeText (extractApiKeyValue item) = []
  · simp [h] at hitem
  · simp only [if_neg h] at hitem
    injection hitem with h3
    subst h3
    cases hv : extractApiKeyValue item with
    | none =>
      rw [hv] at h
      simp [normalizeText] at h
    | some v =>
      rw [hv] at h
      exact ⟨trim_idem v, h⟩

/-- C2 (amended): both copies of `normalizeApiKeyList` extract, per element,
the plain string or the first present of the `api-key`/`apiKey`/`key`/`Key`
fields, keep non-empty trimmed keys, and deduplicate keeping the first
occurrence in order; the ApiEndpointsPage copy deduplicates
case-insensitively (keyed on the lower-cased key) while the page-level copy
deduplicates by case-sensitive exact match; the documented example holds
for both. -/
theorem normalizeApiKeyList_spec :
    (∀ input, normalizeApiKeyList input = dedupFirstByAux toLower [] (extractedApiKeys input)) ∧
    (∀ input, normalizeApiKeyListPage input = dedupFirstByAux id [] (extractedApiKeys input)) ∧
    (∀ input, List.Sublist (normalizeApiKeyList input) (extractedApiKeys input)) ∧
    (∀ input, List.Sublist (normalizeApiKeyListPage input) (extractedApiKeys input)) ∧
    (∀ input, ∀ k ∈ normalizeApiKeyList input, trim k = k ∧ k ≠ []) ∧
    (∀ input, ∀ k ∈ normalizeApiKeyListPage input, trim k = k ∧ k ≠ []) ∧
    normalizeApiKeyList [ApiKeyItem.obj (some (str "a")) none none none,
      ApiKeyItem.plainString (str "a"), ApiKeyItem.obj none (some (str "b")) none none] =
      [str "a", str "b"] ∧
    normalizeApiKeyListPage [ApiKeyItem.obj (some (str "a")) none none none,
      ApiKeyItem.plainString (str "a"), ApiKeyItem.obj none (some (str "b")) none none] =
      [str "a", str "b"] := by
  have he1 : ∀ input, normalizeApiKeyList input = dedupFirstByAux toLower [] (extractedApiKeys input) :=
    fun input => normalizeApiKeyListAux_eq input []
  have he2 : ∀ input, normalizeApiKeyListPage input = dedupFirstByAux id [] (extractedApiKeys input) :=
    fun input => normalizeApiKeyListPageAux_eq input []
  refine ⟨he1, he2, ?_, ?_, ?_, ?_, by decide, by decide⟩
  · intro input
    rw [he1]
    exact dedupFirstByAux_sublist toLower (extractedApiKeys input) []
  · intro input
    rw [he2]
    exact dedupFirstByAux_sublist id (extractedApiKeys input) []
  · intro input k hk
    have hmem : k ∈ extractedApiKeys input := by
      have hs := dedupFirstByAux_sublist toLower (extractedApiKeys input) []
      rw [he1] at hk
      exact hs.subset hk
    exact extractedApiKeys_trimmed input k hmem
  · intro input k hk
    have hmem : k ∈ extractedApiKeys input := by
      have hs := dedupFirstByAux_sublist id (extractedApiKeys input) []
      rw [he2] at hk
      exact hs.subset hk
    exact extractedApiKeys_trimmed input k hmem

/-- C2 counterexample: the ApiEndpointsPage copy of `normalizeApiKeyList`
collapses two keys that differ only in letter case, so its deduplication is
not a case-sensitive exact match. -/
theorem normalizeApiKeyList_caseSensitive_counterexample :
    normalizeApiKeyList [ApiKeyItem.plainString (str "a"), ApiKeyItem.plainString (str "A")] =
      [str "a"] ∧
    normalizeApiKeyList [ApiKeyItem.plainString (str "a"), ApiKeyItem.plainString (str "A")] ≠
      [str "a", str "A"] :=
  ⟨by decide, by decide⟩

/-- Closed witness for `normalizeApiKeyList_spec`: the trimmed-and-non-empty
guarantee applied at a concrete input and member. -/
theorem normalizeApiKeyList_spec_witness :
    trim (str "a") = str "a" ∧ str "a" ≠ [] :=
  normalizeApiKeyList_spec.2.2.2.2.1 [ApiKeyItem.plainString (str "a")] (str "a") (by decide)

/-!  C8: `dedupeModels`. -/

theorem normalizeText_some (s : Str) : normalizeText (some s) = trim s := rfl

theorem normalizeText_none : normalizeText none = [] := rfl

theorem trim_normalizeText (o : Option Str) : trim (normalizeText o) = normalizeText o := by
  cases o with
  | none => rfl
  | some s => exact trim_idem s

theorem toLower_eq_nil_iff (s : Str) : toLower s = [] ↔ s = [] := by
  simp [toLower]

theorem dedupeModelsAux_canonical (l : List ModelInfo) : ∀ seen : List Str,
    (∀ m ∈ dedupeModelsAux seen l, canonicalModel m ∧ toLower m.name ∉ seen) ∧
    ((dedupeModelsAux seen l).map fun m => toLower m.name).Nodup := by
  induction l with
  | nil =>
    intro seen
    exact ⟨fun m hm => absurd hm (List.not_mem_nil m), by simp [dedupeModelsAux]⟩
  | cons m rest ih =>
    intro seen
    simp only [dedupeModelsAux, normalizeText_some]
    by_cases h1 : trim m.name = []
    · rw [if_pos h1]
      exact ih seen
    · rw [if_neg h1]
      by_cases h2 : toLower (trim m.name) ∈ seen
      · rw [if_pos h2]
        exact ih seen
      · rw [if_neg h2]
        obtain ⟨ihA, ihB⟩ := ih (toLower (trim m.name) :: seen)
        constructor
        · intro x hx
          rcases List.mem_cons.mp hx with hx1 | hx2
          · subst hx1
            refine ⟨⟨trim_idem m.name, h1, ?_, ?_⟩, h2⟩
            · intro a ha
              by_cases hc : normalizeText m.«alias» ≠ [] ∧
                  toLower (normalizeText m.«alias») ≠ toLower (trim m.name)
              · rw [if_pos hc] at ha
                obtain rfl := Option.mem_some_iff.mp ha
                exact ⟨trim_normalizeText m.«alias», hc.1, hc.2⟩
              · rw [if_neg hc] at ha
                exact absurd ha (by simp)
            · intro d hd
              by_cases hc : normalizeText m.description ≠ []
              · rw [if_pos hc] at hd
                obtain rfl := Option.mem_some_iff.mp hd
                exact ⟨trim_normalizeText m.description, hc⟩
              · rw [if_neg hc] at hd
                exact absurd hd (by simp)
          · have hx3 := ihA x hx2
            exact ⟨hx3.1, fun hmem => hx3.2 (List.mem_cons_of_mem _ hmem)⟩
        · simp only [List.map_cons, List.nodup_cons]
          refine ⟨?_, ihB⟩
          intro hmem
          obtain ⟨x, hx, hkx⟩ := List.mem_map.mp hmem
          have hx3 := (ihA x hx).2
          rw [hkx] at hx3
          exact hx3 (List.mem_cons_self _ _)

theorem dedupeModelsAux_of_canonical (l : List ModelInfo) : ∀ seen : List Str,
    (∀ m ∈ l, canonicalModel m) →
    ((l.map fun m => toLower m.name).Nodup) →
    (∀ m ∈ l, toLower m.name ∉ seen) →
    dedupeModelsAux seen l = l := by
  induction l with
  | nil => intro seen _ _ _; rfl
  | cons m rest ih =>
    intro seen hcan hnodup hseen
    obtain ⟨htrim, hne, halias, hdescr⟩ := hcan m (List.mem_cons_self m rest)
    simp only [dedupeModelsAux, normalizeText_some, htrim]
    rw [if_neg hne, if_neg (hseen m (List.mem_cons_self m rest))]
    have ha : (if normalizeText m.«alias» ≠ [] ∧
        toLower (normalizeText m.«alias») ≠ toLower m.name
        then some (normalizeText m.«alias») else none) = m.«alias» := by
      cases hma : m.«alias» with
      | none => simp [normalizeText_none]
      | some a =>
        obtain ⟨ha1, ha2, ha3⟩ := halias a (by rw [hma]; exact rfl)
        simp only [normalizeText_some, ha1]
        rw [if_pos ⟨ha2, ha3⟩]
    have hd : (if normalizeText m.description ≠ []
        then some (normalizeText m.description) else none) = m.description := by
      cases hmd : m.description with
      | none => simp [normalizeText_none]
      | some d =>
        obtain ⟨hd1, hd2⟩ := hdescr d (by rw [hmd]; exact rfl)
        simp only [normalizeText_some, hd1]
        rw [if_pos hd2]
    rw [ha, hd]
    have hnodup2 : ((rest.map fun x => toLower x.name).Nodup) ∧
        toLower m.name ∉ rest.map fun x => toLower x.name := by
      have h0 := hnodup
      simp only [List.map_cons, List.nodup_cons] at h0
      exact ⟨h0.2, h0.1⟩
    have hrest : dedupeModelsAux (toLower m.name :: seen) rest = rest := by
      apply ih
      · intro x hx
        exact hcan x (List.mem_cons_of_mem m hx)
      · exact hnodup2.1
      · intro x hx hmem
        rcases List.mem_cons.mp hmem with h | h
        · exact hnodup2.2 (h ▸ List.mem_map_of_mem (fun y => toLower y.name) hx)
        · exact hseen x (List.mem_cons_of_mem m hx) h
    rw [hrest]

theorem dedupeModelsAux_keys (l : List ModelInfo) : ∀ seen : List Str,
    (dedupeModelsAux seen l).map (fun m => toLower m.name) =
      dedupFirstByAux id seen ((l.map fun m => toLower (trim m.name)).filter fun k => k ≠ []) := by
  induction l with
  | nil => intro seen; rfl
  | cons m rest ih =>
    intro seen
    by_cases h1 : trim m.name = []
    · have hstep : dedupeModelsAux seen (m :: rest) = dedupeModelsAux seen rest := by
        simp only [dedupeModelsAux, normalizeText_some, if_pos h1]
      have hfilter : (((m :: rest).map fun x => toLower (trim x.name)).filter fun k => k ≠ []) =
          ((rest.map fun x => toLower (trim x.name)).filter fun k => k ≠ []) := by
        simp [h1, toLower]
      rw [hstep, hfilter]
      exact ih seen
    · have hkey_ne : toLower (trim m.name) ≠ [] := fun hk => h1 ((toLower_eq_nil_iff _).mp hk)
      have hfilter : (((m :: rest).map fun x => toLower (trim x.name)).filter fun k => k ≠ []) =
          toLower (trim m.name) ::
            ((rest.map fun x => toLower (trim x.name)).filter fun k => k ≠ []) := by
        simp [hkey_ne]
      rw [hfilter]
      by_cases h2 : toLower (trim m.name) ∈ seen
      · have hstep : dedupeModelsAux seen (m :: rest) = dedupeModelsAux seen rest := by
          simp only [dedupeModelsAux, normalizeText_some]
          rw [if_neg h1, if_pos h2]
        have hdedup : dedupFirstByAux id seen (toLower (trim m.name) ::
            ((rest.map fun x => toLower (trim x.name)).filter fun k => k ≠ [])) =
            dedupFirstByAux id seen
              ((rest.map fun x => toLower (trim x.name)).filter fun k => k ≠ []) := by
          simp only [dedupFirstByAux, id_eq]
          rw [if_pos h2]
        rw [hstep, hdedup]
        exact ih seen
      · have hstep : dedupeModelsAux seen (m :: rest) =
            ({ name := trim m.name,
               «alias» := if normalizeText m.«alias» ≠ [] ∧
                   toLower (normalizeText m.«alias») ≠ toLower (trim m.name)
                 then some (normalizeText m.«alias») else none,
               description := if normalizeText m.description ≠ []
                 then some (normalizeText m.description) else none } : ModelInfo) ::
              dedupeModelsAux (toLower (trim m.name) :: seen) rest := by
          simp only [dedupeModelsAux, normalizeText_some]
          rw [if_neg h1, if_neg h2]
        have hdedup : dedupFirstByAux id seen (toLower (trim m.name) ::
            ((rest.map fun x => toLower (trim x.name)).filter fun k => k ≠ [])) =
            toLower (trim m.name) :: dedupFirstByAux id (toLower (trim m.name) :: seen)
              ((rest.map fun x => toLower (trim x.name)).filter fun k => k ≠ []) := by
          simp only [dedupFirstByAux, id_eq]
          rw [if_neg h2]
        rw [hstep, hdedup, List.map_cons]
        exact congrArg (List.cons _) (ih (toLower (trim m.name) :: seen))

/-- C8: `dedupeModels` is idempotent; its key sequence is the
first-occurrence deduplication of the lower-cased non-empty trimmed input
names (first occurrence wins, order preserved); and the first kept
occurrence is emitted with trimmed name, the alias dropped when it
case-insensitively equals the name, and the description dropped when empty
after trimming. -/
theorem dedupeModels_spec :
    (∀ l, dedupeModels (dedupeModels l) = dedupeModels l) ∧
    (∀ l, (dedupeModels l).map (fun m => toLower m.name) =
       dedupFirstByAux id [] (modelNameKeys l)) ∧
    (∀ (m : ModelInfo) (l : List ModelInfo), trim m.name ≠ [] →
       dedupeModels (m :: l) =
         { name := trim m.name,
           «alias» := if normalizeText m.«alias» ≠ [] ∧
               toLower (normalizeText m.«alias») ≠ toLower (trim m.name)
             then some (normalizeText m.«alias») else none,
           description := if normalizeText m.description ≠ []
             then some (normalizeText m.description) else none } ::
           dedupeModelsAux [toLower (trim m.name)] l) := by
  refine ⟨?_, ?_, ?_⟩
  · intro l
    obtain ⟨hA, hB⟩ := dedupeModelsAux_canonical l []
    apply dedupeModelsAux_of_canonical
    · intro m hm
      exact (hA m hm).1
    · exact hB
    · intro m _
      exact List.not_mem_nil _
  · intro l
    exact dedupeModelsAux_keys l []
  · intro m l h
    simp only [dedupeModels, dedupeModelsAux, normalizeText_some]
    rw [if_neg h, if_neg (List.not_mem_nil _)]

/-- Closed witness for `dedupeModels_spec`: the head-shape part applied at a
concrete model whose alias is a case variant of its name and whose
description is blank. -/
theorem dedupeModels_spec_witness :
    dedupeModels
        [({ name := str "GPT-4", «alias» := some (str "gpt-4"), description := some (str " ") } :
          ModelInfo)] =
      { name := trim (str "GPT-4"),
        «alias» := if normalizeText (some (str "gpt-4")) ≠ [] ∧
            toLower (normalizeText (some (str "gpt-4"))) ≠ toLower (trim (str "GPT-4"))
          then some (normalizeText (some (str "gpt-4"))) else none,
        description := if normalizeText (some (str " ")) ≠ []
          then some (normalizeText (some (str " "))) else none } ::
        dedupeModelsAux [toLower (trim (str "GPT-4"))] [] :=
  dedupeModels_spec.2.2 _ [] (by decide)

/-!  C1 and C7: the refresh orchestrator. -/

theorem mapGet_mapSet_self {α : Type} (m : List (Str × α)) (k : Str) (v : α) :
    mapGet (mapSet m k v) k = some v := by
  induction m with
  | nil => simp [mapSet, mapGet]
  | cons p rest ih =>
    by_cases h : p.1 = k
    · simp [mapSet, mapGet, h]
    · simp [mapSet, mapGet, h, ih]

theorem mapGet_mapSet_ne {α : Type} (m : List (Str × α)) (k k2 : Str) (v : α) (h : k ≠ k2) :
    mapGet (mapSet m k v) k2 = mapGet m k2 := by
  induction m with
  | nil => simp [mapSet, mapGet, h]
  | cons p rest ih =>
    by_cases h2 : p.1 = k
    · simp [mapSet, mapGet, h2, h]
    · simp only [mapSet, mapGet, if_neg h2]
      by_cases h3 : p.1 = k2
      · simp [mapGet, h3]
      · simp [mapGet, h3, ih]

theorem completeRefresh_tokens (s : OrchestratorState) (id : Str) (token : Nat)
    (r : Except Str (List ModelInfo)) : (completeRefresh s id token r).tokens = s.tokens := by
  unfold completeRefresh
  split
  · rfl
  · split <;> rfl

theorem completeRefresh_stale (s : OrchestratorState) (id : Str) (token : Nat)
    (r : Except Str (List ModelInfo)) (h : mapGet s.tokens id ≠ some token) :
    completeRefresh s id token r = s := by
  unfold completeRefresh
  rw [if_pos h]

theorem completeRefresh_fresh (s : OrchestratorState) (id : Str) (token : Nat)
    (r : Except Str (List ModelInfo)) (h : mapGet s.tokens id = some token) :
    completeRefresh s id token r =
      (match r with
        | .ok models =>
            { s with modelsByProvider :=
                mapSet s.modelsByProvider id { status := .success, models := models } }
        | .error msg =>
            { s with modelsByProvider :=
                mapSet s.modelsByProvider id { status := .error, models := prevModels s id, error := some msg } }) := by
  unfold completeRefresh
  rw [if_neg (fun hc => hc h)]

/-- C1: when `refreshSingleProviderModels` starts twice for the same
provider id, only the later-started call's result is published: in either
completion order the earlier call's completion is a no-op (its captured
token is stale), and the final per-provider state is exactly the state the
later call's result dictates. -/
theorem refreshToken_lastWriterWins_spec :
    ∀ (s0 : OrchestratorState) (id : Str) (rA rB : Except Str (List ModelInfo))
      (s1 s2 : OrchestratorState) (tA tB : Nat),
      startRefresh s0 id = (s1, tA) →
      startRefresh s1 id = (s2, tB) →
      completeRefresh (completeRefresh s2 id tA rA) id tB rB = completeRefresh s2 id tB rB ∧
      completeRefresh (completeRefresh s2 id tB rB) id tA rA = completeRefresh s2 id tB rB ∧
      mapGet (completeRefresh s2 id tB rB).modelsByProvider id =
        some (match rB with
          | .ok models => { status := RefreshStatus.success, models := models }
          | .error msg =>
              { status := RefreshStatus.error, models := prevModels s2 id,
                error := some msg }) := by
  intro s0 id rA rB s1 s2 tA tB h1 h2
  unfold startRefresh at h1 h2
  rw [Prod.mk.injEq] at h1 h2
  obtain ⟨hs1, htA⟩ := h1
  obtain ⟨hs2, htB⟩ := h2
  have hs1tok : s1.tokens = mapSet s0.tokens id tA := by
    rw [← hs1, htA]
  have htB2 : tB = tA + 1 := by
    rw [← htB, hs1tok, mapGet_mapSet_self]
    rfl
  have hAB : tA ≠ tB := by omega
  have hs2tok : s2.tokens = mapSet s1.tokens id tB := by
    rw [← hs2, htB]
  have hget2 : mapGet s2.tokens id = some tB := by
    rw [hs2tok, mapGet_mapSet_self]
  have hstaleA : mapGet s2.tokens id ≠ some tA := by
    rw [hget2]
    intro hc
    exact hAB (Option.some.inj hc).symm
  have hA_noop : completeRefresh s2 id tA rA = s2 := completeRefresh_stale s2 id tA rA hstaleA
  have hB := completeRefresh_fresh s2 id tB rB hget2
  refine ⟨by rw [hA_noop], ?_, ?_⟩
  · have htok : (completeRefresh s2 id tB rB).tokens = s2.tokens :=
      completeRefresh_tokens s2 id tB rB
    apply completeRefresh_stale
    rw [htok]
    exact hstaleA
  · rw [hB]
    cases rB with
    | ok models => exact mapGet_mapSet_self _ _ _
    | error msg => exact mapGet_mapSet_self _ _ _

/-- Closed witness for `refreshToken_lastWriterWins_spec`: two refreshes for
provider id `p` from the empty state, the first completing with an error
and the second with a one-model success, in both completion orders. -/
theorem refreshToken_lastWriterWins_spec_witness :
    completeRefresh (completeRefresh
        ⟨[(str "p", 2)], [(str "p", ({ status := RefreshStatus.loading, models := [] } : ProviderModelsState))]⟩
        (str "p") 1 (Except.error (str "boom"))) (str "p") 2
        (Except.ok [{ name := str "m" }]) =
      completeRefresh
        ⟨[(str "p", 2)], [(str "p", ({ status := RefreshStatus.loading, models := [] } : ProviderModelsState))]⟩
        (str "p") 2 (Except.ok [{ name := str "m" }]) ∧
    completeRefresh (completeRefresh
        ⟨[(str "p", 2)], [(str "p", ({ status := RefreshStatus.loading, models := [] } : ProviderModelsState))]⟩
        (str "p") 2 (Except.ok [{ name := str "m" }])) (str "p") 1
        (Except.error (str "boom")) =
      completeRefresh
        ⟨[(str "p", 2)], [(str "p", ({ status := RefreshStatus.loading, models := [] } : ProviderModelsState))]⟩
        (str "p") 2 (Except.ok [{ name := str "m" }]) ∧
    mapGet (completeRefresh
        ⟨[(str "p", 2)], [(str "p", ({ status := RefreshStatus.loading, models := [] } : ProviderModelsState))]⟩
        (str "p") 2 (Except.ok [{ name := str "m" }])).modelsByProvider (str "p") =
      some { status := RefreshStatus.success, models := [{ name := str "m" }] } :=
  refreshToken_lastWriterWins_spec ⟨[], []⟩ (str "p") (Except.error (str "boom"))
    (Except.ok [{ name := str "m" }])
    ⟨[(str "p", 1)], [(str "p", ({ status := RefreshStatus.loading, models := [] } : ProviderModelsState))]⟩
    ⟨[(str "p", 2)], [(str "p", ({ status := RefreshStatus.loading, models := [] } : ProviderModelsState))]⟩
    1 2 (by decide) (by decide)

theorem foldl_mapSet_get_not_mem {α : Type} (g : Str → α) (ids : List Str) :
    ∀ (acc : List (Str × α)) (id : Str), id ∉ ids →
      mapGet (ids.foldl (fun next i => mapSet next i (g i)) acc) id = mapGet acc id := by
  induction ids with
  | nil => intro acc id _; rfl
  | cons e rest ih =>
    intro acc id h
    have h1 : id ≠ e := fun hc => h (hc ▸ List.mem_cons_self e rest)
    have h2 : id ∉ rest := fun hc => h (List.mem_cons_of_mem e hc)
    simp only [List.foldl_cons]
    rw [ih _ id h2, mapGet_mapSet_ne _ _ _ _ (fun hc => h1 hc.symm)]

theorem foldl_mapSet_get_mem {α : Type} (g : Str → α) (ids : List Str) :
    ∀ (acc : List (Str × α)) (id : Str), id ∈ ids →
      mapGet (ids.foldl (fun next i => mapSet next i (g i)) acc) id = some (g id) := by
  induction ids with
  | nil => intro acc id h; cases h
  | cons e rest ih =>
    intro acc id h
    simp only [List.foldl_cons]
    rcases List.mem_cons.mp h with rfl | h2
    · by_cases hmem : id ∈ rest
      · exact ih _ id hmem
      · rw [foldl_mapSet_get_not_mem g rest _ id hmem, mapGet_mapSet_self]
    · exact ih _ id h2

/-- C7: every transition into status `loading` retains the previously known
models for that provider id: the single-provider refresh publishes
`loading` with the previous models, and the bulk refresh marks every given
entry `loading` with its previous models. -/
theorem loadingRetainsModels_spec :
    (∀ (s : OrchestratorState) (id : Str),
       mapGet (startRefresh s id).1.modelsByProvider id =
         some { status := RefreshStatus.loading, models := prevModels s id }) ∧
    (∀ (entryIds : List Str) (prev : List (Str × ProviderModelsState)) (id : Str),
       id ∈ entryIds →
       mapGet (refreshAllLoadingStep entryIds prev) id =
         some { status := RefreshStatus.loading,
                models := ((mapGet prev id).map fun st => st.models).getD [] }) := by
  constructor
  · intro s id
    exact mapGet_mapSet_self _ _ _
  · intro entryIds prev id h
    have hne : entryIds ≠ [] := by
      intro hc
      rw [hc] at h
      cases h
    unfold refreshAllLoadingStep
    rw [if_neg hne]
    exact foldl_mapSet_get_mem
      (fun i => ({ status := RefreshStatus.loading,
                   models := ((mapGet prev i).map fun st => st.models).getD [],
                   error := none } : ProviderModelsState))
      entryIds [] id h

/-- Closed witness for `loadingRetainsModels_spec`: a provider with known
models transitions to `loading` keeping them, via both entry points. -/
theorem loadingRetainsModels_spec_witness :
    mapGet (startRefresh
        ⟨[], [(str "p", ({ status := RefreshStatus.success, models := [{ name := str "m" }] } : ProviderModelsState))]⟩
        (str "p")).1.modelsByProvider (str "p") =
      some { status := RefreshStatus.loading,
             models := prevModels
               ⟨[], [(str "p", ({ status := RefreshStatus.success, models := [{ name := str "m" }] } : ProviderModelsState))]⟩
               (str "p") } ∧
    mapGet (refreshAllLoadingStep [str "p"]
        [(str "p", ({ status := RefreshStatus.success, models := [{ name := str "m" }] } : ProviderModelsState))])
        (str "p") =
      some { status := RefreshStatus.loading,
             models := ((mapGet
               [(str "p", ({ status := RefreshStatus.success, models := [{ name := str "m" }] } : ProviderModelsState))]
               (str "p")).map fun st => st.models).getD [] } :=
  ⟨loadingRetainsModels_spec.1
      ⟨[], [(str "p", ({ status := RefreshStatus.success, models := [{ name := str "m" }] } : ProviderModelsState))]⟩
      (str "p"),
   loadingRetainsModels_spec.2 [str "p"]
      [(str "p", ({ status := RefreshStatus.success, models := [{ name := str "m" }] } : ProviderModelsState))]
      (str "p") (by decide)⟩

/-!  C5: `buildAuthProviderEntries`. -/

theorem addAuthFile_flagged (groups : List AuthGroup) (f : AuthFileItem)
    (h : (isTruthyFlag f.disabled || isTruthyFlag f.unavailable) = true) :
    addAuthFile groups f = groups := by
  simp only [addAuthFile, h, if_true]

theorem flags_false_of_not_or {f : AuthFileItem}
    (h1 : ¬ (isTruthyFlag f.disabled || isTruthyFlag f.unavailable) = true) :
    (isTruthyFlag f.disabled || isTruthyFlag f.unavailable) = false := by
  cases hb : (isTruthyFlag f.disabled || isTruthyFlag f.unavailable) with
  | false => rfl
  | true => exact absurd hb h1

theorem buildAuthGroups_foldl_filter (files : List AuthFileItem) : ∀ gs : List AuthGroup,
    files.foldl addAuthFile gs =
      (files.filter fun f =>
        !(isTruthyFlag f.disabled || isTruthyFlag f.unavailable)).foldl addAuthFile gs := by
  induction files with
  | nil => intro gs; rfl
  | cons f rest ih =>
    intro gs
    cases hb : (isTruthyFlag f.disabled || isTruthyFlag f.unavailable) with
    | true =>
      simp only [List.foldl_cons, List.filter_cons, hb, Bool.not_true, Bool.false_eq_true,
        if_false]
      rw [addAuthFile_flagged gs f hb]
      exact ih gs
    | false =>
      simp only [List.foldl_cons, List.filter_cons, hb, Bool.not_false, if_true]
      exact ih (addAuthFile gs f)

theorem addAuthFile_keyList (gs : List AuthGroup) (f : AuthFileItem) :
    ((addAuthFile gs f).map fun g => g.key) = (gs.map fun g => g.key) ∨
    (contributingAuthFile f ∧
      toLower (authFileRawProvider f) ∉ (gs.map fun g => g.key) ∧
      ((addAuthFile gs f).map fun g => g.key) =
        (gs.map fun g => g.key) ++ [toLower (authFileRawProvider f)]) := by
  by_cases h1 : (isTruthyFlag f.disabled || isTruthyFlag f.unavailable) = true
  · left
    rw [addAuthFile_flagged gs f h1]
  · have h1b := flags_false_of_not_or h1
    simp only [addAuthFile, h1b, Bool.false_eq_true, if_false]
    by_cases h2 : toLower (authFileRawProvider f) = []
    · left
      rw [if_pos h2]
    · rw [if_neg h2]
      by_cases h3 : normalizeText (some f.name) = []
      · left
        rw [if_pos h3]
      · rw [if_neg h3]
        by_cases h4 : ((gs.find? fun g => g.key = toLower (authFileRawProvider f)).isSome) = true
        · left
          rw [if_pos h4]
          rw [List.map_map]
          apply List.map_congr_left
          intro g _
          by_cases h5 : g.key = toLower (authFileRawProvider f)
          · simp [h5]
          · simp [h5]
        · right
          rw [if_neg h4]
          have hflags : isTruthyFlag f.disabled = false ∧ isTruthyFlag f.unavailable = false := by
            cases hd : isTruthyFlag f.disabled <;> cases hu : isTruthyFlag f.unavailable <;>
              simp_all
          refine ⟨⟨hflags.1, hflags.2, h2, h3⟩, ?_, by simp⟩
          intro hmem
          obtain ⟨g, hg, hgk⟩ := List.mem_map.mp hmem
          have h6 : (gs.find? fun g => g.key = toLower (authFileRawProvider f)).isSome = true := by
            rw [List.find?_isSome]
            exact ⟨g, hg, by simp [hgk]⟩
          exact h4 h6

theorem addAuthFile_mono (gs : List AuthGroup) (f : AuthFileItem) (k n : Str)
    (h : ∃ g ∈ gs, g.key = k ∧ n ∈ g.files) :
    ∃ g ∈ addAuthFile gs f, g.key = k ∧ n ∈ g.files := by
  obtain ⟨g, hg, hk, hn⟩ := h
  by_cases h1 : (isTruthyFlag f.disabled || isTruthyFlag f.unavailable) = true
  · rw [addAuthFile_flagged gs f h1]
    exact ⟨g, hg, hk, hn⟩
  · have h1b := flags_false_of_not_or h1
    simp only [addAuthFile, h1b, Bool.false_eq_true, if_false]
    by_cases h2 : toLower (authFileRawProvider f) = []
    · rw [if_pos h2]
      exact ⟨g, hg, hk, hn⟩
    · rw [if_neg h2]
      by_cases h3 : normalizeText (some f.name) = []
      · rw [if_pos h3]
        exact ⟨g, hg, hk, hn⟩
      · rw [if_neg h3]
        by_cases h4 : ((gs.find? fun g => g.key = toLower (authFileRawProvider f)).isSome) = true
        · rw [if_pos h4]
          refine ⟨_, List.mem_map_of_mem _ hg, ?_, ?_⟩
          · by_cases h5 : g.key = toLower (authFileRawProvider f)
            · rw [if_pos h5]
              exact hk
            · rw [if_neg h5]
              exact hk
          · by_cases h5 : g.key = toLower (authFileRawProvider f)
            · rw [if_pos h5]
              show n ∈ (if normalizeText (some f.name) ∈ g.files then g.files
                else g.files ++ [normalizeText (some f.name)])
              by_cases h6 : normalizeText (some f.name) ∈ g.files
              · rw [if_pos h6]
                exact hn
              · rw [if_neg h6]
                exact List.mem_append_left _ hn
            · rw [if_neg h5]
              exact hn
        · rw [if_neg h4]
          exact ⟨g, List.mem_append_left _ hg, hk, hn⟩

theorem addAuthFile_inserts (gs : List AuthGroup) (f : AuthFileItem)
    (hc : contributingAuthFile f) :
    ∃ g ∈ addAuthFile gs f, g.key = toLower (authFileRawProvider f) ∧
      normalizeText (some f.name) ∈ g.files := by
  obtain ⟨hd, hu, h2, h3⟩ := hc
  have h1b : (isTruthyFlag f.disabled || isTruthyFlag f.unavailable) = false := by
    rw [hd, hu]
    rfl
  simp only [addAuthFile, h1b, Bool.false_eq_true, if_false]
  rw [if_neg h2, if_neg h3]
  by_cases h4 : ((gs.find? fun g => g.key = toLower (authFileRawProvider f)).isSome) = true
  · rw [if_pos h4]
    obtain ⟨g, hfind⟩ := Option.isSome_iff_exists.mp h4
    have hg : g ∈ gs := List.mem_of_find?_eq_some hfind
    have hgk : g.key = toLower (authFileRawProvider f) := by
      have := List.find?_some hfind
      simpa using this
    refine ⟨_, List.mem_map_of_mem _ hg, ?_, ?_⟩
    · rw [if_pos hgk]
      exact hgk
    · rw [if_pos hgk]
      show normalizeText (some f.name) ∈ (if normalizeText (some f.name) ∈ g.files then g.files
        else g.files ++ [normalizeText (some f.name)])
      by_cases h6 : normalizeText (some f.name) ∈ g.files
      · rw [if_pos h6]
        exact h6
      · rw [if_neg h6]
        exact List.mem_append_right _ (List.mem_singleton_self _)
  · rw [if_neg h4]
    refine ⟨_, List.mem_append_right _ (List.mem_singleton_self _), rfl, ?_⟩
    exact List.mem_singleton_self _

theorem foldl_addAuthFile_mono (files : List AuthFileItem) : ∀ (gs : List AuthGroup) (k n : Str),
    (∃ g ∈ gs, g.key = k ∧ n ∈ g.files) →
    ∃ g ∈ files.foldl addAuthFile gs, g.key = k ∧ n ∈ g.files := by
  induction files with
  | nil => intro gs k n h; exact h
  | cons f rest ih =>
    intro gs k n h
    simp only [List.foldl_cons]
    exact ih (addAuthFile gs f) k n (addAuthFile_mono gs f k n h)

theorem foldl_addAuthFile_covers (files : List AuthFileItem) : ∀ (gs : List AuthGroup)
    (f : AuthFileItem), f ∈ files → contributingAuthFile f →
    ∃ g ∈ files.foldl addAuthFile gs, g.key = toLower (authFileRawProvider f) ∧
      normalizeText (some f.name) ∈ g.files := by
  induction files with
  | nil => intro gs f h; cases h
  | cons x rest ih =>
    intro gs f h hc
    simp only [List.foldl_cons]
    rcases List.mem_cons.mp h with rfl | h2
    · exact foldl_addAuthFile_mono rest (addAuthFile gs f) _ _ (addAuthFile_inserts gs f hc)
    · exact ih (addAuthFile gs x) f h2 hc

theorem foldl_addAuthFile_nodup (files : List AuthFileItem) : ∀ gs : List AuthGroup,
    ((gs.map fun g => g.key).Nodup) →
    ((files.foldl addAuthFile gs).map fun g => g.key).Nodup := by
  induction files with
  | nil => intro gs h; exact h
  | cons f rest ih =>
    intro gs h
    simp only [List.foldl_cons]
    apply ih
    rcases addAuthFile_keyList gs f with heq | ⟨_, hnot, heq⟩
    · rw [heq]
      exact h
    · rw [heq]
      simp [List.nodup_append, h, hnot]

theorem foldl_addAuthFile_keys_from (files : List AuthFileItem) : ∀ gs : List AuthGroup,
    ∀ k ∈ (files.foldl addAuthFile gs).map fun g => g.key,
      k ∈ (gs.map fun g => g.key) ∨
      ∃ f ∈ files, contributingAuthFile f ∧ toLower (authFileRawProvider f) = k := by
  induction files with
  | nil => intro gs k h; exact Or.inl h
  | cons f rest ih =>
    intro gs k h
    simp only [List.foldl_cons] at h
    rcases ih (addAuthFile gs f) k h with h2 | ⟨f2, hf2, hc2, hk2⟩
    · rcases addAuthFile_keyList gs f with heq | ⟨hc, _, heq⟩
      · rw [heq] at h2
        exact Or.inl h2
      · rw [heq] at h2
        rcases List.mem_append.mp h2 with h3 | h3
        · exact Or.inl h3
        · refine Or.inr ⟨f, List.mem_cons_self f rest, hc, ?_⟩
          rw [List.mem_singleton] at h3
          exact h3.symm
    · exact Or.inr ⟨f2, List.mem_cons_of_mem f hf2, hc2, hk2⟩

theorem entries_mem_iff (files : List AuthFileItem)
    (aliasMap : List (Str × List OAuthModelAliasEntry)) (excludedMap : List (Str × List Str))
    (baseUrl : Str) (keyOptions : List Str) (e : EndpointProviderEntry) :
    e ∈ buildAuthProviderEntries files aliasMap excludedMap baseUrl keyOptions ↔
      ∃ g ∈ buildAuthGroups files,
        e = { id := str "auth:" ++ g.key,
              sourceKind := SourceKind.authProxy,
              providerKey := g.key,
              name := g.label,
              baseUrl := baseUrl,
              keyOptions := keyOptions,
              order := g.order,
              authFileNames := some g.files,
              aliasLookup := some (buildAliasLookup
                ((aliasMap.find? fun p => p.1 = g.key).map fun p => p.2)),
              excludedPatterns := some (normalizeExcludedPatterns
                ((excludedMap.find? fun p => p.1 = g.key).map fun p => p.2)) } := by
  unfold buildAuthProviderEntries
  rw [List.mem_map]
  constructor
  · rintro ⟨g, hg, rfl⟩
    exact ⟨g, (List.mergeSort_perm (buildAuthGroups files) _).mem_iff.mp hg, rfl⟩
  · rintro ⟨g, hg, rfl⟩
    exact ⟨g, (List.mergeSort_perm (buildAuthGroups files) _).mem_iff.mpr hg, rfl⟩

/-- C5: `buildAuthProviderEntries` excludes exactly the files whose
`disabled` or `unavailable` flag is truthy under the loose flag semantics
(`"yes"` is truthy, `"no"` is not), groups the remaining files by
lower-cased provider key into exactly one entry per distinct key, and each
contributing file's name appears in the `authFileNames` of the entry for
its key; two files with the same provider type yield one entry carrying
both file names. -/
theorem buildAuthProviderEntries_spec :
    (isTruthyFlag (FlagValue.string (str "yes")) = true ∧
     isTruthyFlag (FlagValue.string (str "no")) = false ∧
     (∀ b, isTruthyFlag (FlagValue.boolean b) = b) ∧
     (∀ n : Int, isTruthyFlag (FlagValue.number n) = decide (n ≠ 0)) ∧
     (∀ s, isTruthyFlag (FlagValue.string s) =
        decide (toLower (trim s) ∈ [str "true", str "1", str "yes", str "y", str "on"]))) ∧
    (∀ files aliasMap excludedMap baseUrl keyOptions,
       buildAuthProviderEntries files aliasMap excludedMap baseUrl keyOptions =
         buildAuthProviderEntries
           (files.filter fun f => !(isTruthyFlag f.disabled || isTruthyFlag f.unavailable))
           aliasMap excludedMap baseUrl keyOptions) ∧
    (∀ files aliasMap excludedMap baseUrl keyOptions,
       ((buildAuthProviderEntries files aliasMap excludedMap baseUrl keyOptions).map
         fun e => e.providerKey).Nodup) ∧
    (∀ files aliasMap excludedMap baseUrl keyOptions f, f ∈ files → contributingAuthFile f →
       ∃ e ∈ buildAuthProviderEntries files aliasMap excludedMap baseUrl keyOptions,
         e.providerKey = toLower (authFileRawProvider f) ∧
         normalizeText (some f.name) ∈ e.authFileNames.getD []) ∧
    (∀ files aliasMap excludedMap baseUrl keyOptions e,
       e ∈ buildAuthProviderEntries files aliasMap excludedMap baseUrl keyOptions →
       ∃ f ∈ files, contributingAuthFile f ∧ toLower (authFileRawProvider f) = e.providerKey) := by
  refine ⟨⟨by decide, by decide, ?_, ?_, fun s => rfl⟩, ?_, ?_, ?_, ?_⟩
  · intro b
    cases b <;> rfl
  · intro n
    rfl
  · intro files aliasMap excludedMap baseUrl keyOptions
    unfold buildAuthProviderEntries buildAuthGroups
    rw [buildAuthGroups_foldl_filter files []]
  · intro files aliasMap excludedMap baseUrl keyOptions
    unfold buildAuthProviderEntries
    rw [List.map_map]
    have hperm : ((buildAuthGroups files).mergeSort fun a b => a.order ≤ b.order).Perm
        (buildAuthGroups files) := List.mergeSort_perm _ _
    have hnodup := foldl_addAuthFile_nodup files [] (by simp)
    have : (((buildAuthGroups files).mergeSort fun a b => a.order ≤ b.order).map
        fun g => g.key).Nodup := (hperm.map fun g => g.key).nodup_iff.mpr hnodup
    exact this
  · intro files aliasMap excludedMap baseUrl keyOptions f hf hc
    obtain ⟨g, hg, hk, hn⟩ := foldl_addAuthFile_covers files [] f hf hc
    refine ⟨_, (entries_mem_iff files aliasMap excludedMap baseUrl keyOptions _).mpr
      ⟨g, hg, rfl⟩, hk, ?_⟩
    simpa using hn
  · intro files aliasMap excludedMap baseUrl keyOptions e he
    obtain ⟨g, hg, rfl⟩ := (entries_mem_iff files aliasMap excludedMap baseUrl keyOptions e).mp he
    have hkey : g.key ∈ (buildAuthGroups files).map fun g2 => g2.key :=
      List.mem_map_of_mem _ hg
    rcases foldl_addAuthFile_keys_from files [] g.key hkey with h | ⟨f, hf, hc, hk⟩
    · simp at h
    · exact ⟨f, hf, hc, hk⟩

/-- Closed witness for `buildAuthProviderEntries_spec`: two credential files
with the same provider type produce exactly one entry carrying both file
names. -/
theorem buildAuthProviderEntries_spec_witness :
    buildAuthProviderEntries
        [{ name := str "file1", provider := str "Claude" },
         { name := str "file2", provider := str "claude" }] [] [] [] [] =
      [{ id := str "auth:" ++ str "claude",
         sourceKind := SourceKind.authProxy,
         providerKey := str "claude",
         name := str "Claude",
         baseUrl := [],
         keyOptions := [],
         order := 0,
         authFileNames := some [str "file1", str "file2"],
         aliasLookup := some [],
         excludedPatterns := some [] }] ∧
    (∃ e ∈ buildAuthProviderEntries
        [{ name := str "file1", provider := str "Claude" },
         { name := str "file2", provider := str "claude" }] [] [] [] [],
       e.providerKey = toLower (authFileRawProvider
         ({ name := str "file2", provider := str "claude" } : AuthFileItem)) ∧
       normalizeText (some (str "file2")) ∈ e.authFileNames.getD []) := by
  have hgroups : buildAuthGroups
      [({ name := str "file1", provider := str "Claude" } : AuthFileItem),
       { name := str "file2", provider := str "claude" }] =
      [{ key := str "claude", label := str "Claude", order := 0,
         files := [str "file1", str "file2"] }] := by decide
  have hentries : buildAuthProviderEntries
      [({ name := str "file1", provider := str "Claude" } : AuthFileItem),
       { name := str "file2", provider := str "claude" }] [] [] [] [] =
      [{ id := str "auth:" ++ str "claude",
         sourceKind := SourceKind.authProxy,
         providerKey := str "claude",
         name := str "Claude",
         baseUrl := [],
         keyOptions := [],
         order := 0,
         authFileNames := some [str "file1", str "file2"],
         aliasLookup := some [],
         excludedPatterns := some [] }] := by
    unfold buildAuthProviderEntries
    rw [hgroups]
    have hsort : ([({ key := str "claude", label := str "Claude", order := 0,
                      files := [str "file1", str "file2"] } : AuthGroup)].mergeSort
          fun a b => a.order ≤ b.order) =
        [({ key := str "claude", label := str "Claude", order := 0,
            files := [str "file1", str "file2"] } : AuthGroup)] :=
      List.perm_singleton.mp (List.mergeSort_perm _ _)
    rw [hsort]
    decide
  refine ⟨hentries, ?_⟩
  exact buildAuthProviderEntries_spec.2.2.2.1
    [{ name := str "file1", provider := str "Claude" },
     { name := str "file2", provider := str "claude" }] [] [] [] []
    { name := str "file2", provider := str "claude" } (by decide) ⟨rfl, rfl, by decide, by decide⟩

/-!  C3: `fetchAuthProxyModels`. -/

theorem any_isOk_of_mem {fns : List Str} {env : FetchEnv} {fn : Str} (hfn : fn ∈ fns)
    (hok : (env.fileModels fn).isOk = true) :
    ((fns.map fun f => env.fileModels f).any fun r => r.isOk) = true :=
  List.any_eq_true.mpr ⟨env.fileModels fn, List.mem_map_of_mem _ hfn, hok⟩

theorem any_isOk_eq_false {fns : List Str} {env : FetchEnv}
    (hall : ∀ fn ∈ fns, (env.fileModels fn).isOk = false) :
    ((fns.map fun f => env.fileModels f).any fun r => r.isOk) = false := by
  rw [List.any_eq_false]
  intro r hr
  obtain ⟨fn, hfn, rfl⟩ := List.mem_map.mp hr
  rw [hall fn hfn]
  exact Bool.false_ne_true

/-- C3: for an auth-proxy entry with a usable provider key and at least one
backing credential file, `fetchAuthProxyModels` (1) uses the provider-level
definitions result directly when it succeeds with at least one model, (2)
when the definitions call fails or yields zero models it falls back to the
per-file calls and, as soon as one file call succeeds, returns the models
collected from the successful calls (swallowing any definitions error), and
(3) returns an error exactly when the definitions call failed with that
error and every per-file call failed. -/
theorem fetchAuthProxyModels_spec :
    (∀ (entry : EndpointProviderEntry) (env : FetchEnv) (defs : List ApiModel),
       normalizeProviderKey (some entry.providerKey) ≠ [] →
       env.definitions = Except.ok defs → normalizeAuthApiModels defs ≠ [] →
       fetchAuthProxyModels entry env =
         Except.ok (finalizeFetchedModels entry (normalizeAuthApiModels defs))) ∧
    (∀ (entry : EndpointProviderEntry) (env : FetchEnv) (fns : List Str),
       normalizeProviderKey (some entry.providerKey) ≠ [] →
       entry.authFileNames = some fns → fns ≠ [] →
       (match env.definitions with
         | Except.ok defs => normalizeAuthApiModels defs = []
         | Except.error _ => True) →
       (∃ fn ∈ fns, (env.fileModels fn).isOk = true) →
       fetchAuthProxyModels entry env =
         Except.ok (finalizeFetchedModels entry
           (dedupeModels (collectSettled (fns.map fun fn => env.fileModels fn))))) ∧
    (∀ (entry : EndpointProviderEntry) (env : FetchEnv) (fns : List Str) (e : Str),
       normalizeProviderKey (some entry.providerKey) ≠ [] →
       entry.authFileNames = some fns → fns ≠ [] →
       (fetchAuthProxyModels entry env = Except.error e ↔
         env.definitions = Except.error e ∧
           ∀ fn ∈ fns, (env.fileModels fn).isOk = false)) := by
  refine ⟨?_, ?_, ?_⟩
  · intro entry env defs hkey hdefs hne
    simp only [fetchAuthProxyModels, hdefs]
    rw [if_neg hkey, if_neg (fun hc => hne hc.1)]
  · intro entry env fns hkey hfns hfnsne hdefsEmpty hok
    obtain ⟨fn, hfn, hok2⟩ := hok
    have hful := any_isOk_of_mem hfn hok2
    cases hdef : env.definitions with
    | ok defs =>
      rw [hdef] at hdefsEmpty
      simp only [fetchAuthProxyModels, hdef, hfns, Option.getD_some]
      rw [if_neg hkey, if_pos ⟨by exact hdefsEmpty, by simpa using hfnsne⟩]
    | error e =>
      simp only [fetchAuthProxyModels, hdef, hfns, Option.getD_some]
      rw [if_neg hkey, if_pos ⟨by trivial, by simpa using hfnsne⟩]
      rw [if_neg (fun hc => hc hful)]
  · intro entry env fns e hkey hfns hfnsne
    constructor
    · intro hres
      cases hdef : env.definitions with
      | ok defs =>
        exfalso
        by_cases hm : normalizeAuthApiModels defs = []
        · simp only [fetchAuthProxyModels, hdef, hfns, Option.getD_some] at hres
          rw [if_neg hkey, if_pos ⟨by exact hm, by simpa using hfnsne⟩] at hres
          exact Except.noConfusion hres
        · simp only [fetchAuthProxyModels, hdef, hfns, Option.getD_some] at hres
          rw [if_neg hkey, if_neg (fun hc => hm hc.1)] at hres
          exact Except.noConfusion hres
      | error e2 =>
        simp only [fetchAuthProxyModels, hdef, hfns, Option.getD_some] at hres
        rw [if_neg hkey, if_pos ⟨by trivial, by simpa using hfnsne⟩] at hres
        by_cases hful : ((fns.map fun f => env.fileModels f).any fun r => r.isOk) = true
        · rw [if_neg (fun hc => hc hful)] at hres
          exact absurd hres (fun hc => Except.noConfusion hc)
        · rw [if_pos hful] at hres
          refine ⟨?_, ?_⟩
          · have he : e2 = e := by injection hres
            rw [he]
          · intro fn hfn
            have hfalse : ((fns.map fun f => env.fileModels f).any fun r => r.isOk) = false := by
              cases hx : ((fns.map fun f => env.fileModels f).any fun r => r.isOk) with
              | false => rfl
              | true => exact absurd hx hful
            rw [List.any_eq_false] at hfalse
            have h2 := hfalse (env.fileModels fn) (List.mem_map_of_mem _ hfn)
            cases hx : (env.fileModels fn).isOk with
            | false => rfl
            | true => exact absurd hx (by simpa using h2)
    · rintro ⟨hdef, hall⟩
      have hful := @any_isOk_eq_false fns env hall
      simp only [fetchAuthProxyModels, hdef, hfns, Option.getD_some]
      rw [if_neg hkey, if_pos ⟨by trivial, by simpa using hfnsne⟩]
      rw [if_pos (fun hc => Bool.false_ne_true (hful.symm.trans hc))]

/-- Closed witness for `fetchAuthProxyModels_spec`: with a failing
definitions call and a single failing credential file, the original
definitions error is re-thrown. -/
theorem fetchAuthProxyModels_spec_witness :
    fetchAuthProxyModels
      { id := str "auth:claude", sourceKind := SourceKind.authProxy,
        providerKey := str "claude", name := str "Claude",
        authFileNames := some [str "f1"] }
      { definitions := Except.error (str "defs down"),
        fileModels := fun _ => Except.error (str "file down") } =
      Except.error (str "defs down") :=
  (fetchAuthProxyModels_spec.2.2
    { id := str "auth:claude", sourceKind := SourceKind.authProxy,
      providerKey := str "claude", name := str "Claude",
      authFileNames := some [str "f1"] }
    { definitions := Except.error (str "defs down"),
      fileModels := fun _ => Except.error (str "file down") }
    [str "f1"] (str "defs down") (by decide) rfl (by decide)).mpr
    ⟨rfl, fun fn _ => rfl⟩

theorem addAuthFile_wf (gs : List AuthGroup) (f : AuthFileItem)
    (h : ∀ g ∈ gs, g.key ≠ [] ∧ g.files ≠ []) :
    ∀ g ∈ addAuthFile gs f, g.key ≠ [] ∧ g.files ≠ [] := by
  by_cases h1 : (isTruthyFlag f.disabled || isTruthyFlag f.unavailable) = true
  · rw [addAuthFile_flagged gs f h1]
    exact h
  · have h1b := flags_false_of_not_or h1
    simp only [addAuthFile, h1b, Bool.false_eq_true, if_false]
    by_cases h2 : toLower (authFileRawProvider f) = []
    · rw [if_pos h2]
      exact h
    · rw [if_neg h2]
      by_cases h3 : normalizeText (some f.name) = []
      · rw [if_pos h3]
        exact h
      · rw [if_neg h3]
        by_cases h4 : ((gs.find? fun g => g.key = toLower (authFileRawProvider f)).isSome) = true
        · rw [if_pos h4]
          intro g hg
          obtain ⟨g0, hg0, rfl⟩ := List.mem_map.mp hg
          obtain ⟨hk0, hf0⟩ := h g0 hg0
          by_cases h5 : g0.key = toLower (authFileRawProvider f)
          · rw [if_pos h5]
            refine ⟨hk0, ?_⟩
            show (if normalizeText (some f.name) ∈ g0.files then g0.files
              else g0.files ++ [normalizeText (some f.name)]) ≠ []
            by_cases h6 : normalizeText (some f.name) ∈ g0.files
            · rw [if_pos h6]
              exact hf0
            · rw [if_neg h6]
              simp
          · rw [if_neg h5]
            exact ⟨hk0, hf0⟩
        · rw [if_neg h4]
          intro g hg
          rcases List.mem_append.mp hg with hg1 | hg1
          · exact h g hg1
          · rw [List.mem_singleton] at hg1
            subst hg1
            exact ⟨h2, by simp⟩

theorem buildAuthProviderEntries_wf (files : List AuthFileItem)
    (aliasMap : List (Str × List OAuthModelAliasEntry)) (excludedMap : List (Str × List Str))
    (baseUrl : Str) (keyOptions : List Str) :
    ∀ e ∈ buildAuthProviderEntries files aliasMap excludedMap baseUrl keyOptions,
      e.providerKey ≠ [] ∧ e.authFileNames.getD [] ≠ [] := by
  have hgroups : ∀ g ∈ buildAuthGroups files, g.key ≠ [] ∧ g.files ≠ [] := by
    unfold buildAuthGroups
    generalize hgs : ([] : List AuthGroup) = gs
    have hbase : ∀ g ∈ gs, g.key ≠ [] ∧ g.files ≠ [] := by
      rw [← hgs]
      intro g hg
      cases hg
    clear hgs
    induction files generalizing gs with
    | nil => exact hbase
    | cons f rest ih =>
      simp only [List.foldl_cons]
      exact ih (addAuthFile gs f) (addAuthFile_wf gs f hbase)
  intro e he
  obtain ⟨g, hg, rfl⟩ := (entries_mem_iff files aliasMap excludedMap baseUrl keyOptions e).mp he
  obtain ⟨hk, hf⟩ := hgroups g hg
  exact ⟨hk, by simpa using hf⟩

end ApiMgmt
